import Mathlib

/-!
Sources of the FDTD solver (`sources.cpp`).

A shallow embedding of `sources.cpp`: the envelope / amplitude model of a
source node (`src`), the two time-series integrators, and the point-, plane-
and indexed-source constructors of a `fields_chunk`.

Conventions of the embedding.

* `double` is an arbitrary linear ordered field `R` with a floor function
  (the rationals make every definition executable, the reals give the
  idealised arithmetic).  Rounding, infinities and NaN are outside the model,
  so statements that pass through a division carry the hypothesis that the
  divisor is nonzero whenever the value of the quotient matters.
* The C library functions the file calls (`exp`, `cos` and `sin` behind
  `polar`, `sqrt`) and the constant `pi` of `dactyl.h` are the fields of a
  record `libm R`, passed explicitly.
* `int` is `Int`; the conversion `(int)x` is truncation toward zero (`to_int`).
  It is defined in C++ only when the truncated value lies in the range of `int`
  (`fits_int x`); the statements whose truth depends on a converted value
  carry that hypothesis.
* An `exp` that underflows to zero is a possible `libm`: statements that need
  `exp` to be nonzero somewhere carry that as a hypothesis.
* `exit(1)` is the error case of `Except`; `printf` output is not modelled.
* The intrusive lists `e_sources` / `h_sources` are Lean lists, head first.
-/

namespace Sources

/-! ## External collaborators (`dactyl.h`) -/

/-- The C library as used by `sources.cpp`: `exp`, `cos`, `sin`, `sqrt`, and the
constant `pi`. -/
structure libm (R : Type) where
  exp : R → R
  cos : R → R
  sin : R → R
  sqrt : R → R
  pi : R

/-- Modelled from the spec: the `component` enumeration of `dactyl.h` (absent
from the sources shown); ten field components, as many as the `A[com]`,
`com < 10` array of a source node, five electric and five magnetic. -/
inductive component where
  | Ex | Ey | Er | Ep | Ez | Hx | Hy | Hr | Hp | Hz
  deriving DecidableEq, Repr

/-- Modelled from the spec: `is_magnetic` of `dactyl.h` (absent from the
sources shown), the category of a field component: electric or magnetic. -/
def is_magnetic : component → Bool
  | .Hx | .Hy | .Hr | .Hp | .Hz => true
  | _ => false

/-- Modelled from the spec: the `ndim` enumeration of `dactyl.h` (absent from the
sources shown): planar 1-D, cylindrical, and the other dimensionalities. -/
inductive ndim where
  | d1 | d2 | d3 | dcyl
  deriving DecidableEq, Repr

/-- The type `complex<double>`: only the operations `sources.cpp` uses. -/
structure complex (R : Type) where
  re : R
  im : R
  deriving DecidableEq, Repr

section ComplexOps
variable {R : Type} [LinearOrderedField R]

/-- Conversion `double → complex<double>`. -/
def complex.ofReal (x : R) : complex R := ⟨x, 0⟩

instance : Zero (complex R) := ⟨⟨0, 0⟩⟩
instance : Add (complex R) := ⟨fun z w => ⟨z.re + w.re, z.im + w.im⟩⟩
instance : Sub (complex R) := ⟨fun z w => ⟨z.re - w.re, z.im - w.im⟩⟩
instance : Neg (complex R) := ⟨fun z => ⟨-z.re, -z.im⟩⟩
/-- The product `complex<double> * double`. -/
instance : HMul (complex R) R (complex R) := ⟨fun z x => ⟨z.re * x, z.im * x⟩⟩
/-- The quotient `complex<double> / double`. -/
instance : HDiv (complex R) R (complex R) := ⟨fun z x => ⟨z.re / x, z.im / x⟩⟩

/-- The imaginary unit `complex<double>(0,1)`. -/
def complex.I : complex R := ⟨0, 1⟩

/-- The function `polar(rho, theta)` of `<complex>`. -/
def polar (lm : libm R) (rho theta : R) : complex R :=
  ⟨rho * lm.cos theta, rho * lm.sin theta⟩

end ComplexOps

/-- A position `vec`: its coordinate system and the coordinates `r()`, `z()`
that `sources.cpp` reads. -/
structure vec (R : Type) where
  dim : ndim
  r : R
  z : R

/-- The constructor `vec(z)` of a 1-D position. -/
def vec.mk1 {R : Type} [Zero R] (z : R) : vec R := ⟨.d1, 0, z⟩

/-- The constructor `vec(r, z)` of a cylindrical position. -/
def vec.mkcyl {R : Type} (r z : R) : vec R := ⟨.dcyl, r, z⟩

/-- The grid `volume` of a chunk, as far as `sources.cpp` queries it:
`dim`, `ntot()`, `nr()`, `has_field`, and `interpolate`, which fills the
arrays `ind[8]` and `w[8]` (read at the indices `0..7` only). -/
structure volume (R : Type) where
  dim : ndim
  ntot : Int
  nr : Int
  has_field : component → Bool
  interpolate : component → vec R → (Nat → Int) × (Nat → R)

/-- A source node `src` (without its `next` link, which is the list itself). -/
structure src (R : Type) where
  freq : R
  width : R
  peaktime : R
  cutoff : R
  A : component → complex R
  amp_shift : complex R
  i : Int
  is_continuous : Int

/-- A `fields_chunk`, as far as `sources.cpp` reads and writes it: the grid
`v`, the resolution `a` and time step `inva`, the angular mode `m`, the
permittivity array `ma->eps`, and the two source lists. -/
structure fields_chunk (R : Type) where
  v : volume R
  a : R
  inva : R
  m : Int
  eps : Int → R
  e_sources : List (src R)
  h_sources : List (src R)

section Model
variable {R : Type} [LinearOrderedField R] [FloorRing R]

/-- The conversion `(int)x` of a `double`: truncation toward zero (on the
doubles `x` with `fits_int x`, where C++ defines it). -/
def to_int (x : R) : Int := if 0 ≤ x then ⌊x⌋ else ⌈x⌉

/-- The `double` `x`, truncated toward zero, lies in the range of a 32-bit
`int`, from `-2^31` to `2^31 - 1`: the conversion `(int)x` is defined. -/
def fits_int (x : R) : Prop := -(2 : R) ^ 31 - 1 < x ∧ x < (2 : R) ^ 31

instance (x : R) : Decidable (fits_int x) :=
  inferInstanceAs (Decidable (-(2 : R) ^ 31 - 1 < x ∧ x < (2 : R) ^ 31))

/-! ## Envelope and amplitude -/

/-- The method `src::get_envelope_at_time` (the second `return` of the last
branch is unreachable and has no counterpart). -/
def src.get_envelope_at_time (lm : libm R) (s : src R) (time : R) : R :=
  let tt := time - s.peaktime
  if s.is_continuous ≠ 0 ∧ tt > 0 then
    1
  else if |tt| > s.cutoff then
    0
  else
    lm.exp (-tt * tt / (2 * s.width * s.width))

/-- The method `src::get_amplitude_at_time`. -/
def src.get_amplitude_at_time (lm : libm R) (s : src R) (time : R) : complex R :=
  let envelope := s.get_envelope_at_time lm time
  if envelope = 0 then
    0
  else
    let tt := time - s.peaktime
    (polar lm 1 (-2 * lm.pi * s.freq * tt) - s.amp_shift) * envelope

/-! ## Time-series integrators -/

/-- The loop of `integrate_envelope`, from sample index `t` with `fuel`
iterations left before `t` reaches `1<<30`. -/
def integrate_envelope_loop (lm : libm R) (s : src R) (inva : R) : Nat → Int → R → R
  | 0, _, sofar => sofar
  | fuel + 1, t, sofar =>
    let e := s.get_envelope_at_time lm (t * inva)
    let sofar := sofar + e
    if e = 0 then sofar else integrate_envelope_loop lm s inva fuel (t + 1) sofar

/-- The first sample index of both integrators,
`(int)((s->peaktime - s->cutoff)/inva)`. -/
def first_index (s : src R) (inva : R) : Int :=
  to_int ((s.peaktime - s.cutoff) / inva)

/-- The function `integrate_envelope` (for a non-null `s`). -/
def integrate_envelope (lm : libm R) (s : src R) (inva : R) : R :=
  integrate_envelope_loop lm s inva ((2 ^ 30 - first_index s inva).toNat)
    (first_index s inva) 0 * inva

/-- The loop of `integrate_source`, from sample index `t` with `fuel`
iterations left before `t` reaches `1<<30`. -/
def integrate_source_loop (lm : libm R) (s : src R) (inva : R) :
    Nat → Int → complex R → complex R
  | 0, _, sofar => sofar
  | fuel + 1, t, sofar =>
    let A := s.get_amplitude_at_time lm (t * inva)
    let sofar := sofar + A
    if A = 0 then sofar else integrate_source_loop lm s inva fuel (t + 1) sofar

/-- The function `integrate_source` (for a non-null `s`). -/
def integrate_source (lm : libm R) (s : src R) (inva : R) : complex R :=
  integrate_source_loop lm s inva ((2 ^ 30 - first_index s inva).toNat)
    (first_index s inva) 0 * inva

/-! ## Source constructors of a chunk -/

/-- The node `tmp` of `add_indexed_source` as it is when the integrators are
called (with the chunk's time step `inva`): every field final except
`amp_shift`, which is still `0.0`. -/
def new_src (inva : R) (whichf : component) (freq width peaktime : R)
    (cutoff : Int) (theindex : Int) (amp : complex R) (is_c : Int) (time : R) : src R :=
  let tmp_width := width / freq
  let tmp_cutoff := inva + ((to_int ((cutoff : R) * tmp_width) : Int) : R)
  { freq := freq
    width := tmp_width
    A := fun com => if com = whichf then amp else 0
    i := theindex
    amp_shift := 0
    is_continuous := is_c
    cutoff := tmp_cutoff
    peaktime := if peaktime ≤ 0 then time + tmp_cutoff else peaktime }

/-- The node `tmp` of `add_indexed_source` when the method returns: `new_src`
with its `amp_shift` set by the last two lines of the method.  When
`integrate_envelope` returns zero the quotient has a zero divisor and is not a
number of real arithmetic (the code stores NaN): statements either name the
quotient by its operands or assume the divisor nonzero. -/
def finished_src (lm : libm R) (inva : R) (whichf : component) (freq width peaktime : R)
    (cutoff : Int) (theindex : Int) (amp : complex R) (is_c : Int) (time : R) : src R :=
  let tmp := new_src inva whichf freq width peaktime cutoff theindex amp is_c time
  if is_c ≠ 0 then { tmp with amp_shift := 0 }
  else { tmp with amp_shift := integrate_source lm tmp inva / integrate_envelope lm tmp inva }

/-- The method `fields_chunk::add_indexed_source`.  The node is linked at the
head of its list before its last fields are written; the list holds a pointer,
so the chunk that results is the one with the finished node at the head. -/
def fields_chunk.add_indexed_source (lm : libm R) (c : fields_chunk R)
    (whichf : component) (freq width peaktime : R) (cutoff : Int) (theindex : Int)
    (amp : complex R) (is_c : Int) (time : R) : Except String (fields_chunk R) :=
  if theindex ≥ c.v.ntot ∨ theindex < 0 then
    .error "Error:  source is outside of cell!"
  else
    let tmp := finished_src lm c.inva whichf freq width peaktime cutoff theindex amp
      is_c time
    if is_magnetic whichf then
      .ok { c with h_sources := tmp :: c.h_sources }
    else
      .ok { c with e_sources := tmp :: c.e_sources }

/-- The loop `for (int i=0;i<8 && w[i];i++) add_indexed_source(...)` of
`add_point_source`, from index `i` with `n` indices left below `8`. -/
def add_point_source_loop (lm : libm R) (whichf : component) (freq width peaktime : R)
    (cutoff : Int) (ind : Nat → Int) (w : Nat → R) (amp : complex R) (prefac : R)
    (is_c : Int) (tim : R) : Nat → Nat → fields_chunk R → Except String (fields_chunk R)
  | 0, _, c => .ok c
  | n + 1, i, c =>
    if w i = 0 then .ok c
    else
      match c.add_indexed_source lm whichf freq width peaktime cutoff (ind i)
          ((amp * prefac : complex R) * w i) is_c tim with
      | .error e => .error e
      | .ok c1 =>
        add_point_source_loop lm whichf freq width peaktime cutoff ind w amp prefac
          is_c tim n (i + 1) c1

/-- The method `fields_chunk::add_point_source`.  Its `double cutoff` is
converted to the `int cutoff` parameter of `add_indexed_source`. -/
def fields_chunk.add_point_source (lm : libm R) (c : fields_chunk R)
    (whichf : component) (freq width peaktime cutoff : R) (p : vec R)
    (amp : complex R) (is_c : Int) (tim : R) : Except String (fields_chunk R) :=
  if p.dim ≠ c.v.dim then
    .error "Error:  source doesn't have right dimensions!"
  else if ¬ c.v.has_field whichf then
    .error "Error:  source component is invalid."
  else
    let ind := (c.v.interpolate whichf p).1
    let w := (c.v.interpolate whichf p).2
    if w 0 = 0 then
      .ok c
    else
      let prefac : R :=
        match c.v.dim with
        | .dcyl => c.a
        | .d1 => 1
        | _ => 1
      add_point_source_loop lm whichf freq width peaktime (to_int cutoff) ind w amp
        prefac is_c tim 8 0 c

/-- One pass of the radial loop of the cylindrical branch of `add_plane_source`:
the four point sources `Ep`, `Hr`, `Er`, `Hp` of the grid line `ir`. -/
def add_plane_source_cyl_step (lm : libm R) (freq width peaktime cutoff : R)
    (envelope : vec R → R) (z eps : R) (is_c : Int) (time : R) (ir : Int)
    (c : fields_chunk R) : Except String (fields_chunk R) := do
  let r : R := (ir : R) * c.inva
  let c1 ← c.add_point_source lm .Ep freq width peaktime cutoff (vec.mkcyl r z)
    (complex.ofReal (envelope (vec.mkcyl r z))) is_c time
  let slope : R := ((r + 0.5) * envelope (vec.mkcyl (r + 0.5 * c.inva) z) -
    (r - 0.5) * envelope (vec.mkcyl (r - 0.5 * c.inva) z)) * c.a
  let c2 ← c1.add_point_source lm .Hr freq width peaktime cutoff (vec.mkcyl r z)
    (complex.ofReal (-eps * slope)) is_c time
  let r2 : R := ((ir : R) + 0.5) * c.inva
  let sc : R := if ir = 0 then 0.5 else 1.0
  let slope2 : R := ((r2 + 0.5) * envelope (vec.mkcyl (r2 + 0.5 * c.inva) z) -
    (r2 - 0.5) * envelope (vec.mkcyl (r2 - 0.5 * c.inva) z)) * c.a
  let c3 ← c2.add_point_source lm .Er freq width peaktime cutoff (vec.mkcyl r2 z)
    (((-complex.I : complex R) * sc : complex R) * slope2) is_c time
  c3.add_point_source lm .Hp freq width peaktime cutoff (vec.mkcyl r2 z)
    ((((-complex.I : complex R) * eps : complex R) * sc : complex R) *
      envelope (vec.mkcyl r2 z)) is_c time

/-- The radial loop `for (int ir=0;ir<v.nr();ir++)` of `add_plane_source`, from
`ir` with `n` grid lines left. -/
def add_plane_source_cyl_loop (lm : libm R) (freq width peaktime cutoff : R)
    (envelope : vec R → R) (z eps : R) (is_c : Int) (time : R) :
    Nat → Int → fields_chunk R → Except String (fields_chunk R)
  | 0, _, c => .ok c
  | n + 1, ir, c =>
    match add_plane_source_cyl_step lm freq width peaktime cutoff envelope z eps is_c
        time ir c with
    | .error e => .error e
    | .ok c1 =>
      add_plane_source_cyl_loop lm freq width peaktime cutoff envelope z eps is_c time
        n (ir + 1) c1

/-- The method `fields_chunk::add_plane_source` (`norm` is not read). -/
def fields_chunk.add_plane_source (lm : libm R) (c : fields_chunk R)
    (freq width peaktime cutoff : R) (envelope : vec R → R) (p : vec R)
    (is_c : Int) (time : R) : Except String (fields_chunk R) :=
  if c.v.dim = .dcyl then
    if c.m ≠ 1 then
      .error "Can only use plane source with m == 1!"
    else
      let z := p.z
      let eps := lm.sqrt (c.eps (to_int (z + 0.5)))
      add_plane_source_cyl_loop lm freq width peaktime cutoff envelope z eps is_c time
        c.v.nr.toNat 0 c
  else if c.v.dim = .d1 then
    let z := p.z
    let eps := lm.sqrt (c.eps (to_int (z + 0.5)))
    match c.add_point_source lm .Ex freq width peaktime cutoff (vec.mk1 z)
        (complex.ofReal (envelope (vec.mk1 z))) is_c time with
    | .error e => .error e
    | .ok c1 =>
      c1.add_point_source lm .Hy freq width peaktime cutoff (vec.mk1 z)
        (complex.ofReal (envelope (vec.mk1 z) * eps)) is_c time
  else
    .error "Can't use plane source in this number of dimensions."

end Model

/-! ## Auxiliary definitions for the statements -/

section Aux
variable {R : Type} [LinearOrderedField R] [FloorRing R]

/-- The source list a node of component `whichf` is linked into. -/
def fields_chunk.sources (c : fields_chunk R) (whichf : component) : List (src R) :=
  if is_magnetic whichf then c.h_sources else c.e_sources

/-- The source list a node of component `whichf` is not linked into. -/
def fields_chunk.other_sources (c : fields_chunk R) (whichf : component) : List (src R) :=
  if is_magnetic whichf then c.e_sources else c.h_sources

/-- The number of consecutive nonzero weights `w[i], w[i+1], ...` among the
next `n` ones: the number of passes of the loop of `add_point_source`. -/
def leading_nonzero (w : Nat → R) : Nat → Nat → Nat
  | 0, _ => 0
  | n + 1, i => if w i = 0 then 0 else leading_nonzero w n (i + 1) + 1

/-- The number of nonzero weights among `w[0..7]`. -/
def count_nonzero (w : Nat → R) : Nat :=
  ((List.range 8).filter (fun i => w i ≠ 0)).length

/-- The sum of the envelope over the active window met by the integrators: the
consecutive samples `t, t+1, ...` (at most `fuel` of them) at which the envelope is
not zero. -/
def envelope_window_sum (lm : libm R) (s : src R) (inva : R) : Nat → Int → R
  | 0, _ => 0
  | fuel + 1, t =>
    if s.get_envelope_at_time lm (t * inva) = 0 then 0
    else s.get_envelope_at_time lm (t * inva) + envelope_window_sum lm s inva fuel (t + 1)

/-- The sum of the amplitude over the same active window. -/
def amplitude_window_sum (lm : libm R) (s : src R) (inva : R) : Nat → Int → complex R
  | 0, _ => 0
  | fuel + 1, t =>
    if s.get_envelope_at_time lm (t * inva) = 0 then 0
    else s.get_amplitude_at_time lm (t * inva) + amplitude_window_sum lm s inva fuel (t + 1)

/-- The sample indices that the loop of `integrate_envelope` visits when entered
at `t` with `fuel` iterations left, the one at which it stops included. -/
def integrate_envelope_samples (lm : libm R) (s : src R) (inva : R) : Nat → Int → List Int
  | 0, _ => []
  | fuel + 1, t =>
    if s.get_envelope_at_time lm (t * inva) = 0 then [t]
    else t :: integrate_envelope_samples lm s inva fuel (t + 1)

/-- The sample indices that the loop of `integrate_source` visits when entered
at `t` with `fuel` iterations left, the one at which it stops included. -/
def integrate_source_samples (lm : libm R) (s : src R) (inva : R) : Nat → Int → List Int
  | 0, _ => []
  | fuel + 1, t =>
    if s.get_amplitude_at_time lm (t * inva) = 0 then [t]
    else t :: integrate_source_samples lm s inva fuel (t + 1)

/-- The sum of a list of complex numbers. -/
def complex_sum : List (complex R) → complex R
  | [] => 0
  | z :: zs => z + complex_sum zs

/-- An `exp` that underflows: zero below `-746`, where the `exp` of `double`
arithmetic is zero too, and the given function elsewhere. -/
def underflow_exp (e : R → R) (x : R) : R := if x < -746 then 0 else e x

/-- The grid indices of the nodes of both source lists lie inside the grid. -/
def sources_in_range (c : fields_chunk R) : Prop :=
  ∀ s ∈ c.e_sources ++ c.h_sources, 0 ≤ s.i ∧ s.i < c.v.ntot

/-- A source node with unit frequency and width, peak at time `0`, and the
given cutoff and continuity flag. -/
def example_src (cutoff : R) (is_c : Int) : src R :=
  { freq := 1, width := 1, peaktime := 0, cutoff := cutoff, A := fun _ => 0,
    amp_shift := 0, i := 0, is_continuous := is_c }

/-- A chunk with ten cells, resolution `2` and time step `1/2`, every component
a field of its grid, no source yet, and an interpolation that answers `ind`, `w`
at every position. -/
def example_chunk (dim : ndim) (ind : Nat → Int) (w : Nat → R) : fields_chunk R :=
  { v := { dim := dim, ntot := 10, nr := 10, has_field := fun _ => true,
           interpolate := fun _ _ => (ind, w) },
    a := 2, inva := 1 / 2, m := 1, eps := fun _ => 1, e_sources := [], h_sources := [] }

/-- Weights with three nonzero entries that are not consecutive: `w[0]`, `w[2]`,
`w[3]`. -/
def gap_weights : Nat → R := fun i => if i = 0 ∨ i = 2 ∨ i = 3 then 1 else 0

/-- Weights whose nonzero entries are the first three: `1/2`, `1/4`, `1/4`. -/
def run_weights : Nat → R := fun i => if i = 0 then 1 / 2 else if i < 3 then 1 / 4 else 0

/-- Weights whose first entry is zero and whose second is not. -/
def late_weights : Nat → R := fun i => if i = 1 then 1 else 0

/-- The complex number of Mathlib with the same parts. -/
def complex.toComplex (z : complex ℝ) : ℂ := ⟨z.re, z.im⟩

end Aux

/-! ## The envelope and the amplitude (C1 to C3) -/

section Envelope
variable {R : Type} [LinearOrderedField R]

theorem envelope_outside (lm : libm R) (s : src R) (t : R)
    (hnc : s.is_continuous = 0 ∨ t ≤ s.peaktime) (ht : |t - s.peaktime| > s.cutoff) :
    s.get_envelope_at_time lm t = 0 := by
  unfold src.get_envelope_at_time
  have h1 : ¬ (s.is_continuous ≠ 0 ∧ t - s.peaktime > 0) := by
    rintro ⟨hc, hpos⟩
    rcases hnc with h | h
    · exact hc h
    · linarith
  simp only [h1, if_false, ht, if_true]

theorem envelope_at_peak (lm : libm R) (hexp : lm.exp 0 = 1) (s : src R)
    (hcut : 0 ≤ s.cutoff) : s.get_envelope_at_time lm s.peaktime = 1 := by
  unfold src.get_envelope_at_time
  have h2 : ¬ (|s.peaktime - s.peaktime| > s.cutoff) := by
    simp only [sub_self, abs_zero, gt_iff_lt, not_lt]
    exact hcut
  simp only [sub_self, gt_iff_lt, lt_self_iff_false, and_false, if_false, abs_zero,
    not_lt.mpr hcut, neg_zero, mul_zero, zero_div, hexp]

/-- C1 (amended): for a non-continuous source and an `exp` with `exp(0) = 1`,
the envelope at `peaktime` is `1` as soon as `cutoff` is not negative (the
width being nonzero, so that the exponent is a quotient by a nonzero number),
and the envelope is `0` at every time `t` with `|t - peaktime| > cutoff`. -/
theorem C1_envelope_pulse (lm : libm R) (hexp : lm.exp 0 = 1) (s : src R)
    (hnc : s.is_continuous = 0) :
    (0 ≤ s.cutoff → s.width ≠ 0 → s.get_envelope_at_time lm s.peaktime = 1) ∧
    (∀ t, |t - s.peaktime| > s.cutoff → s.get_envelope_at_time lm t = 0) :=
  ⟨fun hcut _ => envelope_at_peak lm hexp s hcut,
   fun t ht => envelope_outside lm s t (Or.inl hnc) ht⟩

/-- C1, an instance: unit width, cutoff `2`, real `exp`. -/
theorem C1_envelope_pulse_witness :
    (example_src (2 : ℝ) 0).get_envelope_at_time
        ⟨Real.exp, Real.cos, Real.sin, Real.sqrt, Real.pi⟩ 0 = 1 ∧
    (example_src (2 : ℝ) 0).get_envelope_at_time
        ⟨Real.exp, Real.cos, Real.sin, Real.sqrt, Real.pi⟩ 3 = 0 := by
  have h := C1_envelope_pulse (⟨Real.exp, Real.cos, Real.sin, Real.sqrt, Real.pi⟩ : libm ℝ)
    Real.exp_zero (example_src (2 : ℝ) 0) rfl
  refine ⟨h.1 (by norm_num [example_src]) (by norm_num [example_src]), ?_⟩
  exact h.2 3 (by norm_num [example_src])

/-- C1 as stated fails: a non-continuous source with negative cutoff has
envelope `0`, not `1`, at its peak time. -/
theorem C1_counterexample :
    (example_src (-1 : ℝ) 0).is_continuous = 0 ∧
    (example_src (-1 : ℝ) 0).get_envelope_at_time
        ⟨Real.exp, Real.cos, Real.sin, Real.sqrt, Real.pi⟩
        (example_src (-1 : ℝ) 0).peaktime ≠ 1 := by
  refine ⟨rfl, ?_⟩
  norm_num [src.get_envelope_at_time, example_src]

theorem envelope_continuous_after (lm : libm R) (s : src R) (t : R)
    (hc : s.is_continuous ≠ 0) (ht : s.peaktime < t) :
    s.get_envelope_at_time lm t = 1 := by
  unfold src.get_envelope_at_time
  have h1 : s.is_continuous ≠ 0 ∧ t - s.peaktime > 0 := ⟨hc, sub_pos.mpr ht⟩
  exact if_pos h1

/-- C2 (amended): for a continuous source the envelope is `1` at every time
after `peaktime`; at `peaktime` itself it is `1` when `cutoff` is not negative
(for an `exp` with `exp(0) = 1`, the width being nonzero), since there the
sustained branch does not apply and the pulse branch is taken. -/
theorem C2_envelope_continuous (lm : libm R) (s : src R) (hc : s.is_continuous ≠ 0) :
    (∀ t, s.peaktime < t → s.get_envelope_at_time lm t = 1) ∧
    (lm.exp 0 = 1 → 0 ≤ s.cutoff → s.width ≠ 0 →
      s.get_envelope_at_time lm s.peaktime = 1) :=
  ⟨fun t ht => envelope_continuous_after lm s t hc ht,
   fun hexp hcut _ => envelope_at_peak lm hexp s hcut⟩

/-- C2, an instance: a continuous source with cutoff `2`, real `exp`. -/
theorem C2_envelope_continuous_witness :
    (example_src (2 : ℝ) 1).get_envelope_at_time
        ⟨Real.exp, Real.cos, Real.sin, Real.sqrt, Real.pi⟩ 100 = 1 ∧
    (example_src (2 : ℝ) 1).get_envelope_at_time
        ⟨Real.exp, Real.cos, Real.sin, Real.sqrt, Real.pi⟩ 0 = 1 := by
  have h := C2_envelope_continuous (⟨Real.exp, Real.cos, Real.sin, Real.sqrt, Real.pi⟩ : libm ℝ)
    (example_src (2 : ℝ) 1) (by norm_num [example_src])
  refine ⟨h.1 100 (by norm_num [example_src]), ?_⟩
  exact h.2 Real.exp_zero (by norm_num [example_src]) (by norm_num [example_src])

/-- C2 as stated fails at `t = peaktime`: a continuous source with negative
cutoff has envelope `0` there. -/
theorem C2_counterexample :
    (example_src (-1 : ℝ) 1).is_continuous ≠ 0 ∧
    (example_src (-1 : ℝ) 1).peaktime ≥ (example_src (-1 : ℝ) 1).peaktime ∧
    (example_src (-1 : ℝ) 1).get_envelope_at_time
        ⟨Real.exp, Real.cos, Real.sin, Real.sqrt, Real.pi⟩
        (example_src (-1 : ℝ) 1).peaktime ≠ 1 := by
  refine ⟨by norm_num [example_src], le_refl _, ?_⟩
  norm_num [src.get_envelope_at_time, example_src]

theorem amplitude_of_envelope_zero (lm : libm R) (s : src R) (t : R)
    (h : s.get_envelope_at_time lm t = 0) : s.get_amplitude_at_time lm t = 0 := by
  unfold src.get_amplitude_at_time
  simp only [h, if_true]

theorem amplitude_of_envelope_ne_zero (lm : libm R) (s : src R) (t : R)
    (h : s.get_envelope_at_time lm t ≠ 0) :
    s.get_amplitude_at_time lm t =
      (polar lm 1 (-2 * lm.pi * s.freq * (t - s.peaktime)) - s.amp_shift) *
        s.get_envelope_at_time lm t := by
  unfold src.get_amplitude_at_time
  simp only [h, if_false]

theorem polar_one_toComplex (theta : ℝ) :
    (polar ⟨Real.exp, Real.cos, Real.sin, Real.sqrt, Real.pi⟩ 1 theta).toComplex =
      Complex.exp (theta * Complex.I) := by
  apply Complex.ext
  · simp [polar, complex.toComplex, Complex.exp_ofReal_mul_I_re]
  · simp [polar, complex.toComplex, Complex.exp_ofReal_mul_I_im]

theorem sub_mul_toComplex (z w : complex ℝ) (x : ℝ) :
    ((z - w) * x : complex ℝ).toComplex = (z.toComplex - w.toComplex) * (x : ℂ) := by
  apply Complex.ext
  · show (z.re - w.re) * x = _
    simp [complex.toComplex]
  · show (z.im - w.im) * x = _
    simp [complex.toComplex]

/-- C3: in real arithmetic with the real `cos`, `sin` and `pi`, the amplitude
is the complex zero whenever the envelope is `0`, and otherwise it equals
`(exp(-i*2*pi*freq*(t - peaktime)) - amp_shift) * envelope(t)`. -/
theorem C3_amplitude (s : src ℝ) (t : ℝ) :
    (s.get_envelope_at_time ⟨Real.exp, Real.cos, Real.sin, Real.sqrt, Real.pi⟩ t = 0 →
      s.get_amplitude_at_time ⟨Real.exp, Real.cos, Real.sin, Real.sqrt, Real.pi⟩ t = 0) ∧
    (s.get_envelope_at_time ⟨Real.exp, Real.cos, Real.sin, Real.sqrt, Real.pi⟩ t ≠ 0 →
      (s.get_amplitude_at_time
          ⟨Real.exp, Real.cos, Real.sin, Real.sqrt, Real.pi⟩ t).toComplex =
        (Complex.exp (-(Complex.I * 2 * Real.pi * s.freq * (t - s.peaktime))) -
            s.amp_shift.toComplex) *
          ((s.get_envelope_at_time
            ⟨Real.exp, Real.cos, Real.sin, Real.sqrt, Real.pi⟩ t : ℝ) : ℂ)) := by
  refine ⟨amplitude_of_envelope_zero _ s t, fun h => ?_⟩
  rw [amplitude_of_envelope_ne_zero _ s t h, sub_mul_toComplex, polar_one_toComplex]
  congr 3
  push_cast
  ring

end Envelope

/-! ## The indexed-source constructor: what a call does to the chunk -/

section Indexed
variable {R : Type} [LinearOrderedField R] [FloorRing R]

theorem to_int_intCast (n : Int) : to_int (n : R) = n := by
  unfold to_int
  split_ifs <;> simp

theorem to_int_nonneg_iff (x : R) : 0 ≤ to_int x ↔ -1 < x := by
  unfold to_int
  split_ifs with h
  · constructor
    · intro _
      linarith
    · intro _
      exact Int.floor_nonneg.mpr h
  · push_neg at h
    constructor
    · intro h0
      have h1 : (-1 : Int) < ⌈x⌉ := by omega
      have h2 := Int.lt_ceil.mp h1
      simpa using h2
    · intro h0
      have h1 : (-1 : Int) < ⌈x⌉ := Int.lt_ceil.mpr (by simpa using h0)
      omega

theorem add_indexed_source_eq (lm : libm R) (c : fields_chunk R) (whichf : component)
    (freq width peaktime : R) (cutoff theindex : Int) (amp : complex R) (is_c : Int)
    (time : R) (h0 : 0 ≤ theindex) (h1 : theindex < c.v.ntot) :
    c.add_indexed_source lm whichf freq width peaktime cutoff theindex amp is_c time =
      if is_magnetic whichf then
        .ok { c with h_sources := (finished_src lm c.inva whichf freq width peaktime
          cutoff theindex amp is_c time) :: c.h_sources }
      else
        .ok { c with e_sources := (finished_src lm c.inva whichf freq width peaktime
          cutoff theindex amp is_c time) :: c.e_sources } := by
  unfold fields_chunk.add_indexed_source
  have h : ¬ (theindex ≥ c.v.ntot ∨ theindex < 0) := by omega
  simp only [h, if_false]

theorem add_indexed_source_error (lm : libm R) (c : fields_chunk R) (whichf : component)
    (freq width peaktime : R) (cutoff theindex : Int) (amp : complex R) (is_c : Int)
    (time : R) (h : theindex ≥ c.v.ntot ∨ theindex < 0) :
    c.add_indexed_source lm whichf freq width peaktime cutoff theindex amp is_c time =
      .error "Error:  source is outside of cell!" := by
  unfold fields_chunk.add_indexed_source
  simp only [h, if_true]

/-- What a successful `add_indexed_source` does to the chunk: the finished node
is at the head of the list of its component, and nothing else changes. -/
theorem add_indexed_source_ok (lm : libm R) (c c1 : fields_chunk R) (whichf : component)
    (freq width peaktime : R) (cutoff theindex : Int) (amp : complex R) (is_c : Int)
    (time : R)
    (h : c.add_indexed_source lm whichf freq width peaktime cutoff theindex amp is_c time
      = .ok c1) :
    c1.sources whichf = finished_src lm c.inva whichf freq width peaktime cutoff
        theindex amp is_c time :: c.sources whichf ∧
    c1.other_sources whichf = c.other_sources whichf ∧
    c1.v = c.v ∧ c1.a = c.a ∧ c1.inva = c.inva ∧ c1.m = c.m ∧ c1.eps = c.eps ∧
    0 ≤ theindex ∧ theindex < c.v.ntot := by
  by_cases hr : theindex ≥ c.v.ntot ∨ theindex < 0
  · rw [add_indexed_source_error lm c whichf freq width peaktime cutoff theindex amp is_c
      time hr] at h
    cases h
  · have h0 : 0 ≤ theindex := by omega
    have h1 : theindex < c.v.ntot := by omega
    rw [add_indexed_source_eq lm c whichf freq width peaktime cutoff theindex amp is_c
      time h0 h1] at h
    by_cases hm : is_magnetic whichf = true
    · rw [if_pos hm, Except.ok.injEq] at h
      subst h
      simp [fields_chunk.sources, fields_chunk.other_sources, hm, h0, h1]
    · rw [if_neg hm, Except.ok.injEq] at h
      subst h
      simp [fields_chunk.sources, fields_chunk.other_sources, hm, h0, h1]

theorem finished_src_fields (lm : libm R) (inva : R) (whichf : component)
    (freq width peaktime : R) (cutoff theindex : Int) (amp : complex R) (is_c : Int)
    (time : R) :
    let node := finished_src lm inva whichf freq width peaktime cutoff theindex amp is_c time
    node.freq = freq ∧ node.width = width / freq ∧
    node.cutoff = inva + ((to_int ((cutoff : R) * (width / freq)) : Int) : R) ∧
    node.peaktime = (if peaktime ≤ 0 then time + node.cutoff else peaktime) ∧
    node.i = theindex ∧ node.is_continuous = is_c ∧
    node.A = (fun com => if com = whichf then amp else 0) := by
  unfold finished_src new_src
  split_ifs <;> simp

theorem add_indexed_source_isOk (lm : libm R) (c : fields_chunk R) (whichf : component)
    (freq width peaktime : R) (cutoff theindex : Int) (amp : complex R) (is_c : Int)
    (time : R) (h0 : 0 ≤ theindex) (h1 : theindex < c.v.ntot) :
    ∃ c1, c.add_indexed_source lm whichf freq width peaktime cutoff theindex amp is_c time
      = .ok c1 := by
  rw [add_indexed_source_eq lm c whichf freq width peaktime cutoff theindex amp is_c time
    h0 h1]
  by_cases hm : is_magnetic whichf = true
  · rw [if_pos hm]
    exact ⟨_, rfl⟩
  · rw [if_neg hm]
    exact ⟨_, rfl⟩

theorem to_int_of_lt_one (x : R) (h0 : 0 ≤ x) (h1 : x < 1) : to_int x = 0 := by
  unfold to_int
  rw [if_pos h0, Int.floor_eq_iff]
  exact ⟨by simpa using h0, by simpa using h1⟩

end Indexed

/-! ## The point-source injector (C5, C10) -/

section Weights
variable {R : Type} [LinearOrderedField R]

theorem leading_nonzero_le (w : Nat → R) : ∀ n i, leading_nonzero w n i ≤ n := by
  intro n
  induction n with
  | zero => intro i; simp [leading_nonzero]
  | succ n ih =>
    intro i
    unfold leading_nonzero
    split_ifs
    · omega
    · have := ih (i + 1)
      omega

theorem leading_nonzero_spec (w : Nat → R) : ∀ n i,
    (∀ j, j < leading_nonzero w n i → w (i + j) ≠ 0) ∧
    (leading_nonzero w n i < n → w (i + leading_nonzero w n i) = 0) := by
  intro n
  induction n with
  | zero => intro i; simp [leading_nonzero]
  | succ n ih =>
    intro i
    unfold leading_nonzero
    split_ifs with h
    · simp [h]
    · obtain ⟨ih1, ih2⟩ := ih (i + 1)
      constructor
      · intro j hj
        rcases Nat.eq_zero_or_pos j with hj0 | hj0
        · subst hj0
          simpa using h
        · have := ih1 (j - 1) (by omega)
          have e : i + 1 + (j - 1) = i + j := by omega
          rwa [e] at this
      · intro hlt
        have := ih2 (by omega)
        have e : i + 1 + leading_nonzero w n (i + 1) = i + (leading_nonzero w n (i + 1) + 1) := by
          omega
        rwa [e] at this

theorem count_nonzero_of_run (w : Nat → R)
    (hrun : ∀ j, j < 8 → w j ≠ 0 → ∀ i, i < j → w i ≠ 0) :
    leading_nonzero w 8 0 = count_nonzero w := by
  obtain ⟨h1, h2⟩ := leading_nonzero_spec w 8 0
  have hle := leading_nonzero_le w 8 0
  simp only [Nat.zero_add] at h1 h2
  have hiff : ∀ x ∈ List.range 8,
      decide (w x ≠ 0) = decide (x < leading_nonzero w 8 0) := by
    intro x hx
    rw [List.mem_range] at hx
    apply decide_eq_decide.mpr
    constructor
    · intro hwx
      by_contra hlt
      push_neg at hlt
      have hk8 : leading_nonzero w 8 0 < 8 := by omega
      have hz := h2 hk8
      rcases Nat.eq_or_lt_of_le hlt with e | e
      · rw [e] at hz
        exact hwx hz
      · exact hrun x hx hwx _ e hz
    · intro hlt
      exact h1 x hlt
  unfold count_nonzero
  rw [List.filter_congr hiff]
  generalize leading_nonzero w 8 0 = k at hle
  interval_cases k <;> rfl

/-- The prefactor of `add_point_source` is the resolution `a` on a cylindrical
grid and `1` otherwise. -/
theorem prefac_eq (c : fields_chunk R) :
    (match c.v.dim with
      | .dcyl => c.a
      | .d1 => 1
      | _ => 1) = if c.v.dim = .dcyl then c.a else 1 := by
  cases c.v.dim <;> simp

end Weights

section Point
variable {R : Type} [LinearOrderedField R] [FloorRing R]

/-- What a successful run of the loop of `add_point_source` does to the chunk:
one finished node for each weight of the leading run of nonzero weights, the
newest first, in the list of the component; nothing else changes. -/
theorem add_point_source_loop_ok (lm : libm R) (whichf : component)
    (freq width peaktime : R) (cutoff : Int) (ind : Nat → Int) (w : Nat → R)
    (amp : complex R) (prefac : R) (is_c : Int) (tim : R) :
    ∀ (n i : Nat) (c c1 : fields_chunk R),
      add_point_source_loop lm whichf freq width peaktime cutoff ind w amp prefac is_c tim
        n i c = .ok c1 →
      c1.sources whichf =
        ((List.range (leading_nonzero w n i)).map (fun j =>
          finished_src lm c.inva whichf freq width peaktime cutoff (ind (i + j))
            ((amp * prefac : complex R) * w (i + j)) is_c tim)).reverse ++
          c.sources whichf ∧
      c1.other_sources whichf = c.other_sources whichf ∧
      c1.v = c.v ∧ c1.a = c.a ∧ c1.inva = c.inva ∧ c1.m = c.m ∧ c1.eps = c.eps := by
  intro n
  induction n with
  | zero =>
    intro i c c1 h
    simp only [add_point_source_loop, Except.ok.injEq] at h
    subst h
    simp [leading_nonzero]
  | succ n ih =>
    intro i c c1 h
    unfold add_point_source_loop at h
    by_cases hw : w i = 0
    · rw [if_pos hw, Except.ok.injEq] at h
      subst h
      simp [leading_nonzero, hw]
    · rw [if_neg hw] at h
      cases hadd : c.add_indexed_source lm whichf freq width peaktime cutoff (ind i)
          ((amp * prefac : complex R) * w i) is_c tim with
      | error e =>
        rw [hadd] at h
        cases h
      | ok c2 =>
        rw [hadd] at h
        obtain ⟨a1, a2, a3, a4, a5, a6, a7, _, _⟩ :=
          add_indexed_source_ok lm c c2 whichf freq width peaktime cutoff (ind i)
            ((amp * prefac : complex R) * w i) is_c tim hadd
        obtain ⟨b1, b2, b3, b4, b5, b6, b7⟩ := ih (i + 1) c2 c1 h
        refine ⟨?_, b2.trans a2, b3.trans a3, b4.trans a4, b5.trans a5, b6.trans a6,
          b7.trans a7⟩
        rw [b1, a1, a5]
        have hk : leading_nonzero w (n + 1) i = leading_nonzero w n (i + 1) + 1 := by
          conv_lhs => unfold leading_nonzero
          rw [if_neg hw]
        rw [hk, List.range_succ_eq_map, List.map_cons, List.reverse_cons, List.map_map,
          List.append_assoc]
        have hf : ∀ j : Nat, i + 1 + j = i + (j + 1) := fun j => by omega
        simp only [Function.comp_def, Nat.succ_eq_add_one, hf, Nat.add_zero,
          List.singleton_append]

/-- The loop of `add_point_source` succeeds when the indices of the leading run of
nonzero weights are inside the grid. -/
theorem add_point_source_loop_isOk (lm : libm R) (whichf : component)
    (freq width peaktime : R) (cutoff : Int) (ind : Nat → Int) (w : Nat → R)
    (amp : complex R) (prefac : R) (is_c : Int) (tim : R) :
    ∀ (n i : Nat) (c : fields_chunk R),
      (∀ j, j < leading_nonzero w n i → 0 ≤ ind (i + j) ∧ ind (i + j) < c.v.ntot) →
      ∃ c1, add_point_source_loop lm whichf freq width peaktime cutoff ind w amp prefac
        is_c tim n i c = .ok c1 := by
  intro n
  induction n with
  | zero =>
    intro i c _
    exact ⟨c, rfl⟩
  | succ n ih =>
    intro i c hin
    unfold add_point_source_loop
    by_cases hw : w i = 0
    · exact ⟨c, by rw [if_pos hw]⟩
    · rw [if_neg hw]
      have hk : leading_nonzero w (n + 1) i = leading_nonzero w n (i + 1) + 1 := by
        conv_lhs => unfold leading_nonzero
        rw [if_neg hw]
      have h0 := hin 0 (by omega)
      rw [Nat.add_zero] at h0
      rw [add_indexed_source_eq lm c whichf freq width peaktime cutoff (ind i)
        ((amp * prefac : complex R) * w i) is_c tim h0.1 h0.2]
      have hnext : ∀ (c2 : fields_chunk R), c2.v = c.v →
          ∃ c1, add_point_source_loop lm whichf freq width peaktime cutoff ind w amp
            prefac is_c tim n (i + 1) c2 = .ok c1 := by
        intro c2 hv
        apply ih (i + 1) c2
        intro j hj
        have := hin (j + 1) (by omega)
        have e : i + 1 + j = i + (j + 1) := by omega
        rw [e, hv]
        exact this
      by_cases hm : is_magnetic whichf = true
      · rw [if_pos hm]
        exact hnext _ rfl
      · rw [if_neg hm]
        exact hnext _ rfl

/-- What a successful `add_point_source` does to the chunk. -/
theorem add_point_source_ok (lm : libm R) (c c1 : fields_chunk R) (whichf : component)
    (freq width peaktime cutoff : R) (p : vec R) (amp : complex R) (is_c : Int) (tim : R)
    (h : c.add_point_source lm whichf freq width peaktime cutoff p amp is_c tim = .ok c1) :
    p.dim = c.v.dim ∧ c.v.has_field whichf = true ∧
    c1.sources whichf =
      ((List.range (leading_nonzero (c.v.interpolate whichf p).2 8 0)).map (fun j =>
        finished_src lm c.inva whichf freq width peaktime (to_int cutoff)
          ((c.v.interpolate whichf p).1 j)
          ((amp * (if c.v.dim = .dcyl then c.a else 1) : complex R) *
            (c.v.interpolate whichf p).2 j) is_c tim)).reverse ++ c.sources whichf ∧
    c1.other_sources whichf = c.other_sources whichf ∧
    c1.v = c.v ∧ c1.a = c.a ∧ c1.inva = c.inva ∧ c1.m = c.m ∧ c1.eps = c.eps := by
  unfold fields_chunk.add_point_source at h
  by_cases hd : p.dim ≠ c.v.dim
  · rw [if_pos hd] at h
    cases h
  · rw [if_neg hd] at h
    by_cases hf : ¬ c.v.has_field whichf = true
    · rw [if_pos hf] at h
      cases h
    · rw [if_neg hf] at h
      push_neg at hd hf
      refine ⟨hd, hf, ?_⟩
      by_cases hw : (c.v.interpolate whichf p).2 0 = 0
      · simp only [hw, if_true, Except.ok.injEq] at h
        subst h
        simp [leading_nonzero, hw]
      · simp only [hw, if_false] at h
        rw [prefac_eq] at h
        have := add_point_source_loop_ok lm whichf freq width peaktime (to_int cutoff)
          (c.v.interpolate whichf p).1 (c.v.interpolate whichf p).2 amp
          (if c.v.dim = .dcyl then c.a else 1) is_c tim 8 0 c c1 h
        simpa only [Nat.zero_add] using this

/-- The method `add_point_source` succeeds when the position and the component fit
the grid and the indices of the leading run of nonzero weights are inside it. -/
theorem add_point_source_isOk (lm : libm R) (c : fields_chunk R) (whichf : component)
    (freq width peaktime cutoff : R) (p : vec R) (amp : complex R) (is_c : Int) (tim : R)
    (hd : p.dim = c.v.dim) (hf : c.v.has_field whichf = true)
    (hin : ∀ j, j < leading_nonzero (c.v.interpolate whichf p).2 8 0 →
      0 ≤ (c.v.interpolate whichf p).1 j ∧ (c.v.interpolate whichf p).1 j < c.v.ntot) :
    ∃ c1, c.add_point_source lm whichf freq width peaktime cutoff p amp is_c tim
      = .ok c1 := by
  unfold fields_chunk.add_point_source
  rw [if_neg (not_not.mpr hd), if_neg (not_not.mpr hf)]
  by_cases hw : (c.v.interpolate whichf p).2 0 = 0
  · exact ⟨c, by simp only [hw, if_true]⟩
  · simp only [hw, if_false]
    apply add_point_source_loop_isOk
    intro j hj
    rw [Nat.zero_add]
    exact hin j hj

/-- C5 (amended): a successful chunk-level `add_point_source` creates exactly one
node for each weight of the leading run of nonzero weights `w[0], ..., w[k-1]`
(the loop stops at the first zero weight), newest first at the head of the list
of the component, the other list unchanged; the node of candidate `j` has grid
index `ind[j]` and amplitude `amp * prefactor * w[j]`, the prefactor being `a` on
a cylindrical grid and `1` otherwise.  When the nonzero weights are consecutive
from `w[0]`, `k` is the number of nonzero weights. -/
theorem C5_point_source_nodes (lm : libm R) (c c1 : fields_chunk R) (whichf : component)
    (freq width peaktime cutoff : R) (p : vec R) (amp : complex R) (is_c : Int) (tim : R)
    (h : c.add_point_source lm whichf freq width peaktime cutoff p amp is_c tim = .ok c1) :
    c1.sources whichf =
      ((List.range (leading_nonzero (c.v.interpolate whichf p).2 8 0)).map (fun j =>
        finished_src lm c.inva whichf freq width peaktime (to_int cutoff)
          ((c.v.interpolate whichf p).1 j)
          ((amp * (if c.v.dim = .dcyl then c.a else 1) : complex R) *
            (c.v.interpolate whichf p).2 j) is_c tim)).reverse ++ c.sources whichf ∧
    c1.other_sources whichf = c.other_sources whichf ∧
    (∀ j, j < leading_nonzero (c.v.interpolate whichf p).2 8 0 →
      (c.v.interpolate whichf p).2 j ≠ 0) ∧
    (leading_nonzero (c.v.interpolate whichf p).2 8 0 < 8 →
      (c.v.interpolate whichf p).2 (leading_nonzero (c.v.interpolate whichf p).2 8 0) = 0) ∧
    (∀ j, (finished_src lm c.inva whichf freq width peaktime (to_int cutoff)
          ((c.v.interpolate whichf p).1 j)
          ((amp * (if c.v.dim = .dcyl then c.a else 1) : complex R) *
            (c.v.interpolate whichf p).2 j) is_c tim).A whichf =
        (amp * (if c.v.dim = .dcyl then c.a else 1) : complex R) *
          (c.v.interpolate whichf p).2 j) ∧
    ((∀ j, j < 8 → (c.v.interpolate whichf p).2 j ≠ 0 →
        ∀ i, i < j → (c.v.interpolate whichf p).2 i ≠ 0) →
      leading_nonzero (c.v.interpolate whichf p).2 8 0 =
        count_nonzero (c.v.interpolate whichf p).2) := by
  obtain ⟨_, _, h3, h4, _⟩ :=
    add_point_source_ok lm c c1 whichf freq width peaktime cutoff p amp is_c tim h
  obtain ⟨s1, s2⟩ := leading_nonzero_spec (c.v.interpolate whichf p).2 8 0
  simp only [Nat.zero_add] at s1 s2
  refine ⟨h3, h4, s1, s2, ?_, count_nonzero_of_run _⟩
  intro j
  have := (finished_src_fields lm c.inva whichf freq width peaktime (to_int cutoff)
    ((c.v.interpolate whichf p).1 j)
    ((amp * (if c.v.dim = .dcyl then c.a else 1) : complex R) *
      (c.v.interpolate whichf p).2 j) is_c tim).2.2.2.2.2.2
  simp only at this
  rw [this]
  simp

/-- C5, an instance: on a cylindrical grid of resolution `2`, the weights
`1/2, 1/4, 1/4, 0, ...` give three nodes. -/
theorem C5_point_source_nodes_witness :
    ∃ c1 : fields_chunk ℝ,
      (example_chunk .dcyl (fun j => j) run_weights).add_point_source
        ⟨Real.exp, Real.cos, Real.sin, Real.sqrt, Real.pi⟩ .Ep 1 1 0 1 (vec.mkcyl 0 0)
        ⟨1, 0⟩ 0 0 = .ok c1 ∧
      (c1.sources .Ep).length = 3 ∧ c1.other_sources .Ep = [] := by
  obtain ⟨c1, h⟩ := add_point_source_isOk
    (⟨Real.exp, Real.cos, Real.sin, Real.sqrt, Real.pi⟩ : libm ℝ)
    (example_chunk .dcyl (fun j => j) run_weights) .Ep 1 1 0 1 (vec.mkcyl 0 0) ⟨1, 0⟩ 0 0
    rfl rfl (by
      intro j hj
      have := leading_nonzero_le (run_weights : Nat → ℝ) 8 0
      simp only [example_chunk] at hj ⊢
      constructor <;> omega)
  have hk : leading_nonzero (run_weights : Nat → ℝ) 8 0 = 3 := by
    norm_num [leading_nonzero, run_weights]
  obtain ⟨h1, h2, _⟩ := C5_point_source_nodes _ _ c1 _ _ _ _ _ _ _ _ _ h
  refine ⟨c1, h, ?_, ?_⟩
  · rw [h1]
    simp only [example_chunk, hk]
    simp [fields_chunk.sources, is_magnetic]
  · rw [h2]
    simp [example_chunk, fields_chunk.other_sources, is_magnetic]

/-- C5 as stated fails: with the nonzero weights `w[0]`, `w[2]`, `w[3]` (three
of eight) a successful call creates one node, not three. -/
theorem C5_counterexample :
    ∃ c1 : fields_chunk ℝ,
      (example_chunk .d1 (fun j => j) gap_weights).add_point_source
        ⟨Real.exp, Real.cos, Real.sin, Real.sqrt, Real.pi⟩ .Ex 1 1 0 1 (vec.mk1 0)
        ⟨1, 0⟩ 0 0 = .ok c1 ∧
      count_nonzero (gap_weights : Nat → ℝ) = 3 ∧
      c1.e_sources.length = 1 ∧ c1.h_sources.length = 0 := by
  have hk : leading_nonzero (gap_weights : Nat → ℝ) 8 0 = 1 := by
    norm_num [leading_nonzero, gap_weights]
  obtain ⟨c1, h⟩ := add_point_source_isOk
    (⟨Real.exp, Real.cos, Real.sin, Real.sqrt, Real.pi⟩ : libm ℝ)
    (example_chunk .d1 (fun j => j) gap_weights) .Ex 1 1 0 1 (vec.mk1 0) ⟨1, 0⟩ 0 0
    rfl rfl (by
      intro j hj
      have := leading_nonzero_le (gap_weights : Nat → ℝ) 8 0
      simp only [example_chunk] at hj ⊢
      constructor <;> omega)
  obtain ⟨_, _, h1, h2, _⟩ := add_point_source_ok _ _ c1 _ _ _ _ _ _ _ _ _ h
  refine ⟨c1, h, ?_, ?_, ?_⟩
  · norm_num [count_nonzero, gap_weights, List.range, List.range.loop, List.filter]
  · have e : c1.e_sources = c1.sources .Ex := by simp [fields_chunk.sources, is_magnetic]
    rw [e, h1]
    simp only [example_chunk, hk]
    simp [fields_chunk.sources, is_magnetic]
  · have e : c1.h_sources = c1.other_sources .Ex := by
      simp [fields_chunk.other_sources, is_magnetic]
    rw [e, h2]
    simp [example_chunk, fields_chunk.other_sources, is_magnetic]

/-- C10: when the call reaches the interpolation (the position has the
dimensionality of the grid and the component is one of its fields) and the first
weight is zero, chunk-level `add_point_source` returns normally and the chunk,
both source lists included, is unchanged. -/
theorem C10_no_source_here (lm : libm R) (c : fields_chunk R) (whichf : component)
    (freq width peaktime cutoff : R) (p : vec R) (amp : complex R) (is_c : Int) (tim : R)
    (hd : p.dim = c.v.dim) (hf : c.v.has_field whichf = true)
    (hw : (c.v.interpolate whichf p).2 0 = 0) :
    c.add_point_source lm whichf freq width peaktime cutoff p amp is_c tim = .ok c := by
  unfold fields_chunk.add_point_source
  rw [if_neg (not_not.mpr hd), if_neg (not_not.mpr hf)]
  simp only [hw, if_true]

/-- C10, an instance: the first weight is zero and the second is not. -/
theorem C10_no_source_here_witness :
    (example_chunk .d1 (fun j => j) late_weights).add_point_source
        ⟨Real.exp, Real.cos, Real.sin, Real.sqrt, Real.pi⟩ .Ex 1 1 0 1 (vec.mk1 0)
        ⟨1, 0⟩ 0 0 = .ok (example_chunk .d1 (fun j => j) late_weights) :=
  C10_no_source_here (⟨Real.exp, Real.cos, Real.sin, Real.sqrt, Real.pi⟩ : libm ℝ)
    (example_chunk .d1 (fun j => j) late_weights) .Ex 1 1 0 1 (vec.mk1 0) ⟨1, 0⟩ 0 0
    rfl rfl (by simp [example_chunk, late_weights])

end Point

/-! ## The stored fields of a new node (C6 to C9) -/

section Stored
variable {R : Type} [LinearOrderedField R] [FloorRing R]

/-- C6 (amended): for a nonzero frequency `f`, a node built by
`add_indexed_source` with the integer cutoff multiple `c`, the product
`c * (W/f)` being one the conversion to `int` is defined on (`fits_int`), stores
the cutoff `inva + (int)(c * (W/f))`, the product truncated toward zero; this is
`inva + c * (W/f)` whenever the product is an integer, and `f = 0.2`, `W = 5`,
`c = 5` give the time-width `25` and the cutoff `inva + 125`.  A node built
through `add_point_source` with the real cutoff multiple `x` stores
`inva + (int)((int)x * (W/f))`, both conversions being defined. -/
theorem C6_stored_cutoff (lm : libm R) (c : fields_chunk R) (whichf : component)
    (f W pk : R) (amp : complex R) (is_c : Int) (T : R) (_hf : f ≠ 0) :
    (∀ (cut idx : Int) (c1 : fields_chunk R),
      fits_int ((cut : R) * (W / f)) →
      c.add_indexed_source lm whichf f W pk cut idx amp is_c T = .ok c1 →
      ∃ node, c1.sources whichf = node :: c.sources whichf ∧
        node.cutoff = c.inva + ((to_int ((cut : R) * (W / f)) : Int) : R) ∧
        (∀ n : Int, (cut : R) * (W / f) = (n : R) →
          node.cutoff = c.inva + (cut : R) * (W / f)) ∧
        (f = 1 / 5 → W = 5 → cut = 5 → node.width = 25 ∧ node.cutoff = c.inva + 125)) ∧
    (∀ (x : R) (p : vec R) (c1 : fields_chunk R),
      fits_int x → fits_int (((to_int x : Int) : R) * (W / f)) →
      c.add_point_source lm whichf f W pk x p amp is_c T = .ok c1 →
      ∃ nodes, c1.sources whichf = nodes ++ c.sources whichf ∧
        ∀ node ∈ nodes,
          node.cutoff = c.inva + ((to_int (((to_int x : Int) : R) * (W / f)) : Int) : R)) := by
  constructor
  · intro cut idx c1 _ h
    obtain ⟨h1, _⟩ := add_indexed_source_ok lm c c1 whichf f W pk cut idx amp is_c T h
    obtain ⟨_, hw, hc, _⟩ := finished_src_fields lm c.inva whichf f W pk cut idx amp is_c T
    refine ⟨_, h1, hc, ?_, ?_⟩
    · intro n hn
      rw [hc, hn, to_int_intCast]
    · intro hf hW hcut
      subst hf hW hcut
      have e : ((5 : Int) : R) * (5 / (1 / 5)) = ((125 : Int) : R) := by
        push_cast
        norm_num
      constructor
      · rw [hw]
        norm_num
      · rw [hc, e, to_int_intCast]
        push_cast
        rfl
  · intro x p c1 _ _ h
    obtain ⟨_, _, h3, _⟩ := add_point_source_ok lm c c1 whichf f W pk x p amp is_c T h
    refine ⟨_, h3, ?_⟩
    intro node hnode
    rw [List.mem_reverse, List.mem_map] at hnode
    obtain ⟨j, _, rfl⟩ := hnode
    exact (finished_src_fields lm c.inva whichf f W pk (to_int x) _ _ is_c T).2.2.1

/-- C6, an instance: `f = 0.2`, `W = 5`, `c = 5` on a chunk of time step `1/2`. -/
theorem C6_stored_cutoff_witness :
    ∃ (c1 : fields_chunk ℝ) (node : src ℝ),
      (example_chunk .d1 (fun j => j) run_weights).add_indexed_source
        ⟨Real.exp, Real.cos, Real.sin, Real.sqrt, Real.pi⟩ .Ex (1 / 5) 5 0 5 0 ⟨1, 0⟩ 0 0
        = .ok c1 ∧
      c1.sources .Ex = [node] ∧ node.width = 25 ∧ node.cutoff = 1 / 2 + 125 := by
  obtain ⟨c1, h⟩ := add_indexed_source_isOk
    (⟨Real.exp, Real.cos, Real.sin, Real.sqrt, Real.pi⟩ : libm ℝ)
    (example_chunk .d1 (fun j => j) run_weights) .Ex (1 / 5) 5 0 5 0 ⟨1, 0⟩ 0 0
    (le_refl _) (by simp [example_chunk])
  obtain ⟨node, h1, _, _, h4⟩ :=
    (C6_stored_cutoff _ _ _ _ _ _ _ _ _ (by norm_num)).1 5 0 c1
      (by constructor <;> norm_num) h
  obtain ⟨hw, hc⟩ := h4 rfl rfl rfl
  exact ⟨c1, node, h, h1, hw, hc⟩

/-- C6 as stated fails: with `c = 1`, `W = 1`, `f = 2` the stored cutoff is
`inva`, not `inva + c * (W/f) = inva + 1/2`. -/
theorem C6_counterexample :
    ∃ (c1 : fields_chunk ℝ) (node : src ℝ),
      (example_chunk .d1 (fun j => j) run_weights).add_indexed_source
        ⟨Real.exp, Real.cos, Real.sin, Real.sqrt, Real.pi⟩ .Ex 2 1 0 1 0 ⟨1, 0⟩ 0 0
        = .ok c1 ∧
      c1.sources .Ex = [node] ∧
      node.cutoff ≠
        (example_chunk .d1 (fun j => j) (run_weights : Nat → ℝ)).inva +
          ((1 : Int) : ℝ) * (1 / 2) := by
  obtain ⟨c1, h⟩ := add_indexed_source_isOk
    (⟨Real.exp, Real.cos, Real.sin, Real.sqrt, Real.pi⟩ : libm ℝ)
    (example_chunk .d1 (fun j => j) run_weights) .Ex 2 1 0 1 0 ⟨1, 0⟩ 0 0
    (le_refl _) (by simp [example_chunk])
  obtain ⟨h1, _⟩ := add_indexed_source_ok _ _ c1 _ _ _ _ _ _ _ _ _ h
  refine ⟨c1, _, h, h1, ?_⟩
  rw [(finished_src_fields _ _ _ _ _ _ _ _ _ _ _).2.2.1,
    to_int_of_lt_one _ (by norm_num) (by norm_num)]
  norm_num [example_chunk]

/-- C7 (amended): for a nonzero frequency `f` and a product of the cutoff
multiple and the time-width `W/f` that the conversion to `int` is defined on
(`fits_int`), the cutoff stored by `add_indexed_source` is at least one grid time
step `inva` exactly when that product is greater than `-1`, in particular
whenever both factors are non-negative. -/
theorem C7_cutoff_ge_step (lm : libm R) (c c1 : fields_chunk R) (whichf : component)
    (f W pk : R) (cut idx : Int) (amp : complex R) (is_c : Int) (T : R) (_hf : f ≠ 0)
    (_hr : fits_int ((cut : R) * (W / f)))
    (h : c.add_indexed_source lm whichf f W pk cut idx amp is_c T = .ok c1) :
    ∃ node, c1.sources whichf = node :: c.sources whichf ∧
      (c.inva ≤ node.cutoff ↔ -1 < (cut : R) * (W / f)) ∧
      (0 ≤ cut → 0 ≤ W / f → c.inva ≤ node.cutoff) := by
  obtain ⟨h1, _⟩ := add_indexed_source_ok lm c c1 whichf f W pk cut idx amp is_c T h
  obtain ⟨_, _, hc, _⟩ := finished_src_fields lm c.inva whichf f W pk cut idx amp is_c T
  have key : c.inva ≤ c.inva + ((to_int ((cut : R) * (W / f)) : Int) : R) ↔
      -1 < (cut : R) * (W / f) := by
    rw [← to_int_nonneg_iff, le_add_iff_nonneg_right, Int.cast_nonneg]
  refine ⟨_, h1, ?_, ?_⟩
  · rw [hc]
    exact key
  · intro hcut hw
    rw [hc]
    apply key.mpr
    have : (0 : R) ≤ (cut : R) * (W / f) := mul_nonneg (Int.cast_nonneg.mpr hcut) hw
    linarith

/-- C7, an instance: `f = 0.2`, `W = 5`, `c = 5`. -/
theorem C7_cutoff_ge_step_witness :
    ∃ (c1 : fields_chunk ℝ) (node : src ℝ),
      (example_chunk .d1 (fun j => j) run_weights).add_indexed_source
        ⟨Real.exp, Real.cos, Real.sin, Real.sqrt, Real.pi⟩ .Ex (1 / 5) 5 0 5 0 ⟨1, 0⟩ 0 0
        = .ok c1 ∧
      c1.sources .Ex = [node] ∧ (1 / 2 : ℝ) ≤ node.cutoff := by
  obtain ⟨c1, h⟩ := add_indexed_source_isOk
    (⟨Real.exp, Real.cos, Real.sin, Real.sqrt, Real.pi⟩ : libm ℝ)
    (example_chunk .d1 (fun j => j) run_weights) .Ex (1 / 5) 5 0 5 0 ⟨1, 0⟩ 0 0
    (le_refl _) (by simp [example_chunk])
  obtain ⟨node, h1, _, h3⟩ := C7_cutoff_ge_step _ _ c1 _ _ _ _ _ _ _ _ _ (by norm_num)
    (by constructor <;> norm_num) h
  exact ⟨c1, node, h, h1, h3 (by norm_num) (by norm_num)⟩

/-- C7 as stated fails: with the cutoff multiple `-1`, `W = 1`, `f = 1` the
stored cutoff is `inva - 1`, below one grid time step. -/
theorem C7_counterexample :
    ∃ (c1 : fields_chunk ℝ) (node : src ℝ),
      (example_chunk .d1 (fun j => j) run_weights).add_indexed_source
        ⟨Real.exp, Real.cos, Real.sin, Real.sqrt, Real.pi⟩ .Ex 1 1 0 (-1) 0 ⟨1, 0⟩ 0 0
        = .ok c1 ∧
      c1.sources .Ex = [node] ∧
      node.cutoff < (example_chunk .d1 (fun j => j) (run_weights : Nat → ℝ)).inva := by
  obtain ⟨c1, h⟩ := add_indexed_source_isOk
    (⟨Real.exp, Real.cos, Real.sin, Real.sqrt, Real.pi⟩ : libm ℝ)
    (example_chunk .d1 (fun j => j) run_weights) .Ex 1 1 0 (-1) 0 ⟨1, 0⟩ 0 0
    (le_refl _) (by simp [example_chunk])
  obtain ⟨h1, _⟩ := add_indexed_source_ok _ _ c1 _ _ _ _ _ _ _ _ _ h
  refine ⟨c1, _, h, h1, ?_⟩
  have e : ((-1 : Int) : ℝ) * (1 / 1) = ((-1 : Int) : ℝ) := by norm_num
  rw [(finished_src_fields _ _ _ _ _ _ _ _ _ _ _).2.2.1, e, to_int_intCast]
  norm_num [example_chunk]

/-- C8: a node created by `add_indexed_source` at simulation time `T` stores the
peak time `T + cutoff` (its own stored cutoff) when the given peak time is not
positive, and the given peak time when it is positive. -/
theorem C8_stored_peaktime (lm : libm R) (c c1 : fields_chunk R) (whichf : component)
    (f W pk : R) (cut idx : Int) (amp : complex R) (is_c : Int) (T : R)
    (h : c.add_indexed_source lm whichf f W pk cut idx amp is_c T = .ok c1) :
    ∃ node, c1.sources whichf = node :: c.sources whichf ∧
      (pk ≤ 0 → node.peaktime = T + node.cutoff) ∧
      (0 < pk → node.peaktime = pk) := by
  obtain ⟨h1, _⟩ := add_indexed_source_ok lm c c1 whichf f W pk cut idx amp is_c T h
  obtain ⟨_, _, _, hp, _⟩ := finished_src_fields lm c.inva whichf f W pk cut idx amp is_c T
  refine ⟨_, h1, ?_, ?_⟩
  · intro hpk
    rw [hp, if_pos hpk]
  · intro hpk
    rw [hp, if_neg (not_le.mpr hpk)]

/-- C8, an instance: peak time `0` given at simulation time `3`. -/
theorem C8_stored_peaktime_witness :
    ∃ (c1 : fields_chunk ℝ) (node : src ℝ),
      (example_chunk .d1 (fun j => j) run_weights).add_indexed_source
        ⟨Real.exp, Real.cos, Real.sin, Real.sqrt, Real.pi⟩ .Ex (1 / 5) 5 0 5 0 ⟨1, 0⟩ 0 3
        = .ok c1 ∧
      c1.sources .Ex = [node] ∧ node.peaktime = 3 + node.cutoff := by
  obtain ⟨c1, h⟩ := add_indexed_source_isOk
    (⟨Real.exp, Real.cos, Real.sin, Real.sqrt, Real.pi⟩ : libm ℝ)
    (example_chunk .d1 (fun j => j) run_weights) .Ex (1 / 5) 5 0 5 0 ⟨1, 0⟩ 0 3
    (le_refl _) (by simp [example_chunk])
  obtain ⟨node, h1, h2, _⟩ := C8_stored_peaktime _ _ c1 _ _ _ _ _ _ _ _ _ h
  exact ⟨c1, node, h, h1, h2 (le_refl _)⟩

/-- C9: a node created by `add_indexed_source` with cycle-width `W` and
frequency `f` stores `freq = f` and `width = W / f`. -/
theorem C9_stored_freq_width (lm : libm R) (c c1 : fields_chunk R) (whichf : component)
    (f W pk : R) (cut idx : Int) (amp : complex R) (is_c : Int) (T : R)
    (h : c.add_indexed_source lm whichf f W pk cut idx amp is_c T = .ok c1) :
    ∃ node, c1.sources whichf = node :: c.sources whichf ∧
      node.freq = f ∧ node.width = W / f := by
  obtain ⟨h1, _⟩ := add_indexed_source_ok lm c c1 whichf f W pk cut idx amp is_c T h
  obtain ⟨hf, hw, _⟩ := finished_src_fields lm c.inva whichf f W pk cut idx amp is_c T
  exact ⟨_, h1, hf, hw⟩

/-- C9, an instance: `f = 0.2`, `W = 5` give the stored width `25`. -/
theorem C9_stored_freq_width_witness :
    ∃ (c1 : fields_chunk ℝ) (node : src ℝ),
      (example_chunk .d1 (fun j => j) run_weights).add_indexed_source
        ⟨Real.exp, Real.cos, Real.sin, Real.sqrt, Real.pi⟩ .Ex (1 / 5) 5 0 5 0 ⟨1, 0⟩ 0 0
        = .ok c1 ∧
      c1.sources .Ex = [node] ∧ node.freq = 1 / 5 ∧ node.width = 25 := by
  obtain ⟨c1, h⟩ := add_indexed_source_isOk
    (⟨Real.exp, Real.cos, Real.sin, Real.sqrt, Real.pi⟩ : libm ℝ)
    (example_chunk .d1 (fun j => j) run_weights) .Ex (1 / 5) 5 0 5 0 ⟨1, 0⟩ 0 0
    (le_refl _) (by simp [example_chunk])
  obtain ⟨node, h1, h2, h3⟩ := C9_stored_freq_width _ _ c1 _ _ _ _ _ _ _ _ _ h
  refine ⟨c1, node, h, h1, h2, ?_⟩
  rw [h3]
  norm_num

end Stored

/-! ## The integrators and the shift of the amplitude (C4) -/

theorem complex_ext {R : Type} (z w : complex R) (hre : z.re = w.re) (him : z.im = w.im) :
    z = w := by
  cases z
  cases w
  simp only at hre him
  rw [hre, him]

section IntegratorLoops
variable {R : Type} [LinearOrderedField R]

theorem complex_zero_re : (0 : complex R).re = 0 := rfl

theorem complex_zero_im : (0 : complex R).im = 0 := rfl

theorem complex_add_re (z w : complex R) : (z + w).re = z.re + w.re := rfl

theorem complex_add_im (z w : complex R) : (z + w).im = z.im + w.im := rfl

theorem complex_sub_re (z w : complex R) : (z - w).re = z.re - w.re := rfl

theorem complex_sub_im (z w : complex R) : (z - w).im = z.im - w.im := rfl

theorem complex_mul_re (z : complex R) (x : R) : (z * x).re = z.re * x := rfl

theorem complex_mul_im (z : complex R) (x : R) : (z * x).im = z.im * x := rfl

theorem complex_div_re (z : complex R) (x : R) : (z / x).re = z.re / x := rfl

theorem complex_div_im (z : complex R) (x : R) : (z / x).im = z.im / x := rfl

theorem complex_add_zero (z : complex R) : z + 0 = z := by
  apply complex_ext
  · rw [complex_add_re, complex_zero_re, add_zero]
  · rw [complex_add_im, complex_zero_im, add_zero]

theorem complex_zero_mul (x : R) : (0 : complex R) * x = 0 := by
  apply complex_ext
  · rw [complex_mul_re, complex_zero_re, zero_mul]
  · rw [complex_mul_im, complex_zero_im, zero_mul]

/-- When the envelope is zero at the sample `t`, the loop of `integrate_envelope`
entered at `t` leaves the sum as it is. -/
theorem integrate_envelope_loop_stop (lm : libm R) (s : src R) (inva : R) (fuel : Nat)
    (t : Int) (sofar : R) (h : s.get_envelope_at_time lm (t * inva) = 0) :
    integrate_envelope_loop lm s inva fuel t sofar = sofar := by
  cases fuel with
  | zero => rfl
  | succ n =>
    unfold integrate_envelope_loop
    simp only [h, add_zero, if_true]

/-- When the amplitude is zero at the sample `t`, the loop of `integrate_source`
entered at `t` leaves the sum as it is. -/
theorem integrate_source_loop_stop (lm : libm R) (s : src R) (inva : R) (fuel : Nat)
    (t : Int) (sofar : complex R) (h : s.get_amplitude_at_time lm (t * inva) = 0) :
    integrate_source_loop lm s inva fuel t sofar = sofar := by
  cases fuel with
  | zero => rfl
  | succ n =>
    unfold integrate_source_loop
    simp only [h, complex_add_zero, if_true]

theorem complex_add_assoc (z w u : complex R) : z + w + u = z + (w + u) := by
  apply complex_ext
  · simp only [complex_add_re, add_assoc]
  · simp only [complex_add_im, add_assoc]

/-- The loop of `integrate_envelope` adds the envelope over the active window. -/
theorem integrate_envelope_loop_eq (lm : libm R) (s : src R) (inva : R) :
    ∀ (fuel : Nat) (t : Int) (sofar : R),
      integrate_envelope_loop lm s inva fuel t sofar =
        sofar + envelope_window_sum lm s inva fuel t := by
  intro fuel
  induction fuel with
  | zero =>
    intro t sofar
    simp only [integrate_envelope_loop, envelope_window_sum, add_zero]
  | succ n ih =>
    intro t sofar
    unfold integrate_envelope_loop envelope_window_sum
    by_cases he : s.get_envelope_at_time lm (t * inva) = 0
    · simp only [he, add_zero, if_true]
    · simp only [he, if_false]
      rw [ih, add_assoc]

/-- With a zero shift and a carrier that does not vanish, the amplitude is zero
exactly where the envelope is. -/
theorem amplitude_eq_zero_iff (lm : libm R) (s : src R) (t : R)
    (hp : ∀ x, lm.cos x ≠ 0 ∨ lm.sin x ≠ 0) (hs : s.amp_shift = 0) :
    s.get_amplitude_at_time lm t = 0 ↔ s.get_envelope_at_time lm t = 0 := by
  constructor
  · intro h
    by_contra he
    rw [amplitude_of_envelope_ne_zero lm s t he, hs] at h
    have hre := congrArg complex.re h
    have him := congrArg complex.im h
    simp only [complex_mul_re, complex_mul_im, complex_sub_re, complex_sub_im,
      complex_zero_re, complex_zero_im, polar, one_mul, sub_zero, mul_eq_zero] at hre him
    rcases hp (-2 * lm.pi * s.freq * (t - s.peaktime)) with hc | hsn
    · rcases hre with h1 | h1
      · exact hc h1
      · exact he h1
    · rcases him with h1 | h1
      · exact hsn h1
      · exact he h1
  · exact amplitude_of_envelope_zero lm s t

/-- With a zero shift and a carrier that does not vanish, the loop of
`integrate_source` adds the amplitude over the active window. -/
theorem integrate_source_loop_eq (lm : libm R) (s : src R) (inva : R)
    (hp : ∀ x, lm.cos x ≠ 0 ∨ lm.sin x ≠ 0) (hs : s.amp_shift = 0) :
    ∀ (fuel : Nat) (t : Int) (sofar : complex R),
      integrate_source_loop lm s inva fuel t sofar =
        sofar + amplitude_window_sum lm s inva fuel t := by
  intro fuel
  induction fuel with
  | zero =>
    intro t sofar
    simp only [integrate_source_loop, amplitude_window_sum, complex_add_zero]
  | succ n ih =>
    intro t sofar
    unfold integrate_source_loop amplitude_window_sum
    by_cases he : s.get_envelope_at_time lm (t * inva) = 0
    · have ha := amplitude_of_envelope_zero lm s _ he
      simp only [he, ha, complex_add_zero, if_true]
    · have ha : ¬ s.get_amplitude_at_time lm (t * inva) = 0 :=
        fun h => he ((amplitude_eq_zero_iff lm s _ hp hs).mp h)
      simp only [he, ha, if_false]
      rw [ih, complex_add_assoc]

/-- Changing the shift of a node does not change its envelope. -/
theorem envelope_with_shift (lm : libm R) (s : src R) (z : complex R) (t : R) :
    ({ s with amp_shift := z } : src R).get_envelope_at_time lm t =
      s.get_envelope_at_time lm t := rfl

/-- The amplitude of a node with shift `z`, from the amplitude with shift zero. -/
theorem amplitude_with_shift (lm : libm R) (s : src R) (z : complex R) (t : R)
    (hs : s.amp_shift = 0) :
    ({ s with amp_shift := z } : src R).get_amplitude_at_time lm t =
      s.get_amplitude_at_time lm t - z * s.get_envelope_at_time lm t := by
  by_cases he : s.get_envelope_at_time lm t = 0
  · rw [amplitude_of_envelope_zero lm s t he,
      amplitude_of_envelope_zero lm _ t ((envelope_with_shift lm s z t).trans he), he]
    apply complex_ext
    · simp only [complex_sub_re, complex_mul_re, complex_zero_re, mul_zero, sub_zero]
    · simp only [complex_sub_im, complex_mul_im, complex_zero_im, mul_zero, sub_zero]
  · rw [amplitude_of_envelope_ne_zero lm s t he,
      amplitude_of_envelope_ne_zero lm _ t
        (fun h => he ((envelope_with_shift lm s z t).symm.trans h)),
      envelope_with_shift, hs]
    apply complex_ext
    · simp only [complex_sub_re, complex_mul_re, complex_zero_re]
      ring
    · simp only [complex_sub_im, complex_mul_im, complex_zero_im]
      ring

/-- The amplitude sum of a node with shift `z` over the active window. -/
theorem amplitude_window_sum_with_shift (lm : libm R) (s : src R) (z : complex R)
    (inva : R) (hs : s.amp_shift = 0) :
    ∀ (fuel : Nat) (t : Int),
      amplitude_window_sum lm ({ s with amp_shift := z } : src R) inva fuel t =
        amplitude_window_sum lm s inva fuel t - z * envelope_window_sum lm s inva fuel t := by
  intro fuel
  induction fuel with
  | zero =>
    intro t
    simp only [amplitude_window_sum, envelope_window_sum]
    apply complex_ext
    · simp only [complex_sub_re, complex_mul_re, complex_zero_re, mul_zero, sub_zero]
    · simp only [complex_sub_im, complex_mul_im, complex_zero_im, mul_zero, sub_zero]
  | succ n ih =>
    intro t
    unfold amplitude_window_sum envelope_window_sum
    rw [envelope_with_shift]
    by_cases he : s.get_envelope_at_time lm (t * inva) = 0
    · simp only [he, if_true]
      apply complex_ext
      · simp only [complex_sub_re, complex_mul_re, complex_zero_re, mul_zero, sub_zero]
      · simp only [complex_sub_im, complex_mul_im, complex_zero_im, mul_zero, sub_zero]
    · simp only [he, if_false]
      rw [ih, amplitude_with_shift lm s z _ hs]
      apply complex_ext
      · simp only [complex_sub_re, complex_mul_re, complex_add_re]
        ring
      · simp only [complex_sub_im, complex_mul_im, complex_add_im]
        ring

theorem complex_zero_add (z : complex R) : 0 + z = z := by
  apply complex_ext
  · rw [complex_add_re, complex_zero_re, zero_add]
  · rw [complex_add_im, complex_zero_im, zero_add]

/-- The envelope is never negative when `exp` is not. -/
theorem envelope_nonneg (lm : libm R) (hexp : ∀ x, 0 ≤ lm.exp x) (s : src R) (t : R) :
    0 ≤ s.get_envelope_at_time lm t := by
  unfold src.get_envelope_at_time
  simp only
  split_ifs
  · exact zero_le_one
  · exact le_refl _
  · exact hexp _

theorem envelope_window_sum_nonneg (lm : libm R) (hexp : ∀ x, 0 ≤ lm.exp x) (s : src R)
    (inva : R) : ∀ (fuel : Nat) (t : Int), 0 ≤ envelope_window_sum lm s inva fuel t := by
  intro fuel
  induction fuel with
  | zero =>
    intro t
    exact le_refl _
  | succ n ih =>
    intro t
    unfold envelope_window_sum
    split_ifs
    · exact le_refl _
    · exact add_nonneg (envelope_nonneg lm hexp s _) (ih _)

/-- The envelope sum over the active window is positive when the window is not
empty. -/
theorem envelope_window_sum_pos (lm : libm R) (hexp : ∀ x, 0 ≤ lm.exp x) (s : src R)
    (inva : R) (fuel : Nat) (t : Int) (hfuel : 0 < fuel)
    (he : s.get_envelope_at_time lm (t * inva) ≠ 0) :
    0 < envelope_window_sum lm s inva fuel t := by
  obtain ⟨n, rfl⟩ := Nat.exists_eq_succ_of_ne_zero (Nat.pos_iff_ne_zero.mp hfuel)
  unfold envelope_window_sum
  rw [if_neg he]
  exact add_pos_of_pos_of_nonneg (lt_of_le_of_ne (envelope_nonneg lm hexp s _) (Ne.symm he))
    (envelope_window_sum_nonneg lm hexp s inva _ _)

end IntegratorLoops

section Integrators
variable {R : Type} [LinearOrderedField R] [FloorRing R]

/-- Both integrators return zero when the envelope is zero at the first sample. -/
theorem integrators_zero_of_first_zero (lm : libm R) (s : src R) (inva : R)
    (h : s.get_envelope_at_time lm ((first_index s inva : Int) * inva) = 0) :
    integrate_envelope lm s inva = 0 ∧ integrate_source lm s inva = 0 := by
  constructor
  · unfold integrate_envelope
    rw [integrate_envelope_loop_stop lm s inva _ _ _ h, zero_mul]
  · unfold integrate_source
    rw [integrate_source_loop_stop lm s inva _ _ _
      (amplitude_of_envelope_zero lm s _ h), complex_zero_mul]

/-- The envelope integral is not zero when the first sample lies below the index
bound and the envelope is not zero there. -/
theorem integrate_envelope_ne_zero (lm : libm R) (hexp : ∀ x, 0 ≤ lm.exp x) (s : src R)
    (inva : R) (hi : inva ≠ 0) (hk : first_index s inva < 2 ^ 30)
    (he : s.get_envelope_at_time lm ((first_index s inva : Int) * inva) ≠ 0) :
    integrate_envelope lm s inva ≠ 0 := by
  unfold integrate_envelope
  rw [integrate_envelope_loop_eq, zero_add]
  have hfuel : 0 < (2 ^ 30 - first_index s inva).toNat := by omega
  exact mul_ne_zero (ne_of_gt (envelope_window_sum_pos lm hexp s inva _ _ hfuel he)) hi

/-- The intended effect of the shift.  For a non-continuous node built by
`add_indexed_source`, when the carrier does not vanish and the envelope integral
(the divisor of the shift) is not zero, the stored `amp_shift` makes the
time-step-scaled sum of the amplitude over the active window met by the
integrators equal to zero. -/
theorem amp_shift_cancels (lm : libm R) (inva : R) (whichf : component) (f W pk : R)
    (cut idx : Int) (amp : complex R) (T : R)
    (hp : ∀ x, lm.cos x ≠ 0 ∨ lm.sin x ≠ 0)
    (hD : integrate_envelope lm (new_src inva whichf f W pk cut idx amp 0 T) inva ≠ 0) :
    amplitude_window_sum lm (finished_src lm inva whichf f W pk cut idx amp 0 T) inva
        ((2 ^ 30 - first_index (finished_src lm inva whichf f W pk cut idx amp 0 T)
          inva).toNat)
        (first_index (finished_src lm inva whichf f W pk cut idx amp 0 T) inva) * inva
      = 0 := by
  have hfin : finished_src lm inva whichf f W pk cut idx amp 0 T =
      { new_src inva whichf f W pk cut idx amp 0 T with
        amp_shift := integrate_source lm (new_src inva whichf f W pk cut idx amp 0 T) inva /
          integrate_envelope lm (new_src inva whichf f W pk cut idx amp 0 T) inva } := by
    unfold finished_src
    simp only [ne_eq, not_true_eq_false, if_false]
  have hs : (new_src inva whichf f W pk cut idx amp 0 T).amp_shift = 0 := rfl
  rw [hfin]
  generalize new_src inva whichf f W pk cut idx amp 0 T = s0 at hD hs ⊢
  have hk : ∀ z : complex R,
      first_index ({ s0 with amp_shift := z } : src R) inva = first_index s0 inva :=
    fun _ => rfl
  rw [hk, amplitude_window_sum_with_shift lm s0 _ inva hs]
  have hN : integrate_source lm s0 inva =
      amplitude_window_sum lm s0 inva ((2 ^ 30 - first_index s0 inva).toNat)
        (first_index s0 inva) * inva := by
    unfold integrate_source
    rw [integrate_source_loop_eq lm s0 inva hp hs, complex_zero_add]
  have hE : integrate_envelope lm s0 inva =
      envelope_window_sum lm s0 inva ((2 ^ 30 - first_index s0 inva).toNat)
        (first_index s0 inva) * inva := by
    unfold integrate_envelope
    rw [integrate_envelope_loop_eq, zero_add]
  rw [hE] at hD
  rw [hN, hE]
  generalize amplitude_window_sum lm s0 inva ((2 ^ 30 - first_index s0 inva).toNat)
    (first_index s0 inva) = a
  generalize envelope_window_sum lm s0 inva ((2 ^ 30 - first_index s0 inva).toNat)
    (first_index s0 inva) = e at hD
  have he : e ≠ 0 := left_ne_zero_of_mul hD
  have hi : inva ≠ 0 := right_ne_zero_of_mul hD
  apply complex_ext
  · simp only [complex_mul_re, complex_sub_re, complex_div_re, complex_zero_re]
    field_simp
    ring
  · simp only [complex_mul_im, complex_sub_im, complex_div_im, complex_zero_im]
    field_simp
    ring

/-- An instance of `amp_shift_cancels`: on a chunk of time step `1/2`, the source
with `freq = 1`, `width = 1`, `peaktime = 2` and cutoff multiple `1` (cutoff `3/2`)
starts at the sample `1/2`, inside its support. -/
theorem amp_shift_cancels_witness :
    amplitude_window_sum ⟨Real.exp, Real.cos, Real.sin, Real.sqrt, Real.pi⟩
        (finished_src ⟨Real.exp, Real.cos, Real.sin, Real.sqrt, Real.pi⟩ (1 / 2 : ℝ) .Ex 1 1
          2 1 0 ⟨1, 0⟩ 0 0) (1 / 2)
        ((2 ^ 30 - first_index (finished_src
          ⟨Real.exp, Real.cos, Real.sin, Real.sqrt, Real.pi⟩ (1 / 2 : ℝ) .Ex 1 1
          2 1 0 ⟨1, 0⟩ 0 0) (1 / 2)).toNat)
        (first_index (finished_src ⟨Real.exp, Real.cos, Real.sin, Real.sqrt, Real.pi⟩
          (1 / 2 : ℝ) .Ex 1 1 2 1 0 ⟨1, 0⟩ 0 0) (1 / 2)) * (1 / 2 : ℝ) = 0 := by
  apply amp_shift_cancels
  · intro x
    by_contra h
    push_neg at h
    have := Real.cos_sq_add_sin_sq x
    simp only at h
    rw [h.1, h.2] at this
    norm_num at this
  · have hti : to_int (((1 : Int) : ℝ) * (1 / 1)) = 1 := by
      have e : ((1 : Int) : ℝ) * (1 / 1) = ((1 : Int) : ℝ) := by norm_num
      rw [e, to_int_intCast]
    have hcut : (new_src (1 / 2 : ℝ) .Ex 1 1 2 1 0 ⟨1, 0⟩ 0 0).cutoff = 3 / 2 := by
      simp only [new_src, hti]
      norm_num
    have hpk : (new_src (1 / 2 : ℝ) .Ex 1 1 2 1 0 ⟨1, 0⟩ 0 0).peaktime = 2 := by
      simp only [new_src]
      norm_num
    have hc : (new_src (1 / 2 : ℝ) .Ex 1 1 2 1 0 ⟨1, 0⟩ 0 0).is_continuous = 0 := rfl
    have hfirst : first_index (new_src (1 / 2 : ℝ) .Ex 1 1 2 1 0 ⟨1, 0⟩ 0 0) (1 / 2) = 1 := by
      unfold first_index
      rw [hcut, hpk]
      unfold to_int
      rw [if_pos (by norm_num), Int.floor_eq_iff]
      constructor <;> norm_num
    apply integrate_envelope_ne_zero _ (fun x => (Real.exp_pos x).le) _ _ (by norm_num)
    · rw [hfirst]
      norm_num
    · rw [hfirst]
      unfold src.get_envelope_at_time
      rw [hcut, hpk, hc]
      rw [if_neg (by norm_num), if_neg (by norm_num [abs_of_neg])]
      exact Real.exp_ne_zero _

/-- C4 fails on a source that starts late.  On a chunk of time step `1/2`, the
non-continuous source with `freq = 1`, `width = 1`, `peaktime = 13/4` and cutoff
multiple `1` has cutoff `3/2`; its first sample index is `3`, where the envelope
is zero, so both integrators return zero and the shift is the quotient `0/0`,
although the envelope is not zero at the next sample, time `2`. -/
theorem C4_late_start_zero_integrals :
    (∃ c1 : fields_chunk ℝ,
      (example_chunk .d1 (fun j => j) run_weights).add_indexed_source
        ⟨Real.exp, Real.cos, Real.sin, Real.sqrt, Real.pi⟩ .Ex 1 1 (13 / 4) 1 0 ⟨1, 0⟩ 0 0
        = .ok c1 ∧
      c1.sources .Ex =
        [finished_src ⟨Real.exp, Real.cos, Real.sin, Real.sqrt, Real.pi⟩ (1 / 2) .Ex 1 1
          (13 / 4) 1 0 ⟨1, 0⟩ 0 0]) ∧
    first_index (new_src (1 / 2 : ℝ) .Ex 1 1 (13 / 4) 1 0 ⟨1, 0⟩ 0 0) (1 / 2) = 3 ∧
    (new_src (1 / 2 : ℝ) .Ex 1 1 (13 / 4) 1 0 ⟨1, 0⟩ 0 0).get_envelope_at_time
      ⟨Real.exp, Real.cos, Real.sin, Real.sqrt, Real.pi⟩ (((3 : Int) : ℝ) * (1 / 2)) = 0 ∧
    integrate_envelope ⟨Real.exp, Real.cos, Real.sin, Real.sqrt, Real.pi⟩
      (new_src (1 / 2 : ℝ) .Ex 1 1 (13 / 4) 1 0 ⟨1, 0⟩ 0 0) (1 / 2) = 0 ∧
    integrate_source ⟨Real.exp, Real.cos, Real.sin, Real.sqrt, Real.pi⟩
      (new_src (1 / 2 : ℝ) .Ex 1 1 (13 / 4) 1 0 ⟨1, 0⟩ 0 0) (1 / 2) = 0 ∧
    (new_src (1 / 2 : ℝ) .Ex 1 1 (13 / 4) 1 0 ⟨1, 0⟩ 0 0).get_envelope_at_time
      ⟨Real.exp, Real.cos, Real.sin, Real.sqrt, Real.pi⟩ 2 ≠ 0 := by
  have hti : to_int (((1 : Int) : ℝ) * (1 / 1)) = 1 := by
    have e : ((1 : Int) : ℝ) * (1 / 1) = ((1 : Int) : ℝ) := by norm_num
    rw [e, to_int_intCast]
  have hcut : (new_src (1 / 2 : ℝ) .Ex 1 1 (13 / 4) 1 0 ⟨1, 0⟩ 0 0).cutoff = 3 / 2 := by
    simp only [new_src, hti]
    norm_num
  have hpk : (new_src (1 / 2 : ℝ) .Ex 1 1 (13 / 4) 1 0 ⟨1, 0⟩ 0 0).peaktime = 13 / 4 := by
    simp only [new_src]
    norm_num
  have hc : (new_src (1 / 2 : ℝ) .Ex 1 1 (13 / 4) 1 0 ⟨1, 0⟩ 0 0).is_continuous = 0 := rfl
  have hfirst : first_index (new_src (1 / 2 : ℝ) .Ex 1 1 (13 / 4) 1 0 ⟨1, 0⟩ 0 0) (1 / 2)
      = 3 := by
    unfold first_index
    rw [hcut, hpk]
    unfold to_int
    rw [if_pos (by norm_num), Int.floor_eq_iff]
    constructor <;> norm_num
  have henv : (new_src (1 / 2 : ℝ) .Ex 1 1 (13 / 4) 1 0 ⟨1, 0⟩ 0 0).get_envelope_at_time
      ⟨Real.exp, Real.cos, Real.sin, Real.sqrt, Real.pi⟩ (((3 : Int) : ℝ) * (1 / 2)) = 0 := by
    apply envelope_outside _ _ _ (Or.inl hc)
    rw [hcut, hpk]
    norm_num [abs_of_neg]
  have hz := integrators_zero_of_first_zero
    (⟨Real.exp, Real.cos, Real.sin, Real.sqrt, Real.pi⟩ : libm ℝ)
    (new_src (1 / 2 : ℝ) .Ex 1 1 (13 / 4) 1 0 ⟨1, 0⟩ 0 0) (1 / 2) (by rw [hfirst]; exact henv)
  refine ⟨?_, hfirst, henv, hz.1, hz.2, ?_⟩
  · obtain ⟨c1, h⟩ := add_indexed_source_isOk
      (⟨Real.exp, Real.cos, Real.sin, Real.sqrt, Real.pi⟩ : libm ℝ)
      (example_chunk .d1 (fun j => j) run_weights) .Ex 1 1 (13 / 4) 1 0 ⟨1, 0⟩ 0 0
      (le_refl _) (by simp [example_chunk])
    exact ⟨c1, h, (add_indexed_source_ok _ _ c1 _ _ _ _ _ _ _ _ _ h).1⟩
  · unfold src.get_envelope_at_time
    rw [hcut, hpk, hc]
    rw [if_neg (by norm_num), if_neg (by norm_num [abs_of_neg])]
    exact Real.exp_ne_zero _

end Integrators

/-! ## Aborts and the effect on the lists (C11 to C14) -/

theorem sources_magnetic {R : Type} (c : fields_chunk R) (whichf : component)
    (hm : is_magnetic whichf = true) :
    c.sources whichf = c.h_sources ∧ c.other_sources whichf = c.e_sources := by
  unfold fields_chunk.sources fields_chunk.other_sources
  rw [if_pos hm, if_pos hm]
  exact ⟨rfl, rfl⟩

theorem sources_electric {R : Type} (c : fields_chunk R) (whichf : component)
    (hm : is_magnetic whichf = false) :
    c.sources whichf = c.e_sources ∧ c.other_sources whichf = c.h_sources := by
  unfold fields_chunk.sources fields_chunk.other_sources
  rw [if_neg (by rw [hm]; decide), if_neg (by rw [hm]; decide)]
  exact ⟨rfl, rfl⟩

section Lists
variable {R : Type} [LinearOrderedField R] [FloorRing R]

/-- A successful `add_indexed_source` keeps the indices of the nodes inside the
grid. -/
theorem add_indexed_source_in_range (lm : libm R) (c c1 : fields_chunk R)
    (whichf : component) (freq width peaktime : R) (cutoff theindex : Int)
    (amp : complex R) (is_c : Int) (time : R)
    (h : c.add_indexed_source lm whichf freq width peaktime cutoff theindex amp is_c time
      = .ok c1)
    (hc : sources_in_range c) : sources_in_range c1 := by
  obtain ⟨h1, h2, h3, _, _, _, _, h8, h9⟩ :=
    add_indexed_source_ok lm c c1 whichf freq width peaktime cutoff theindex amp is_c time h
  have hi := (finished_src_fields lm c.inva whichf freq width peaktime cutoff theindex amp
    is_c time).2.2.2.2.1
  simp only at hi
  unfold sources_in_range at hc ⊢
  intro s hs
  rw [h3]
  have hmem : s = finished_src lm c.inva whichf freq width peaktime cutoff theindex amp
      is_c time ∨ s ∈ c.e_sources ++ c.h_sources := by
    rw [List.mem_append] at hs ⊢
    cases hm : is_magnetic whichf with
    | true =>
      rw [(sources_magnetic c1 whichf hm).1, (sources_magnetic c whichf hm).1] at h1
      rw [(sources_magnetic c1 whichf hm).2, (sources_magnetic c whichf hm).2] at h2
      rw [h1, h2, List.mem_cons] at hs
      tauto
    | false =>
      rw [(sources_electric c1 whichf hm).1, (sources_electric c whichf hm).1] at h1
      rw [(sources_electric c1 whichf hm).2, (sources_electric c whichf hm).2] at h2
      rw [h1, h2, List.mem_cons] at hs
      tauto
  rcases hmem with rfl | hold
  · rw [hi]
    exact ⟨h8, h9⟩
  · exact hc s hold

/-- The loop of `add_point_source` keeps the indices of the nodes inside the grid. -/
theorem add_point_source_loop_in_range (lm : libm R) (whichf : component)
    (freq width peaktime : R) (cutoff : Int) (ind : Nat → Int) (w : Nat → R)
    (amp : complex R) (prefac : R) (is_c : Int) (tim : R) :
    ∀ (n i : Nat) (c c1 : fields_chunk R),
      add_point_source_loop lm whichf freq width peaktime cutoff ind w amp prefac is_c tim
        n i c = .ok c1 →
      sources_in_range c → sources_in_range c1 := by
  intro n
  induction n with
  | zero =>
    intro i c c1 h hc
    simp only [add_point_source_loop, Except.ok.injEq] at h
    rw [← h]
    exact hc
  | succ n ih =>
    intro i c c1 h hc
    unfold add_point_source_loop at h
    by_cases hw : w i = 0
    · rw [if_pos hw, Except.ok.injEq] at h
      rw [← h]
      exact hc
    · rw [if_neg hw] at h
      cases hadd : c.add_indexed_source lm whichf freq width peaktime cutoff (ind i)
          ((amp * prefac : complex R) * w i) is_c tim with
      | error e =>
        rw [hadd] at h
        cases h
      | ok c2 =>
        rw [hadd] at h
        exact ih (i + 1) c2 c1 h
          (add_indexed_source_in_range lm c c2 whichf freq width peaktime cutoff (ind i)
            ((amp * prefac : complex R) * w i) is_c tim hadd hc)

/-- A successful `add_point_source` keeps the indices of the nodes inside the
grid. -/
theorem add_point_source_in_range (lm : libm R) (c c1 : fields_chunk R)
    (whichf : component) (freq width peaktime cutoff : R) (p : vec R) (amp : complex R)
    (is_c : Int) (tim : R)
    (h : c.add_point_source lm whichf freq width peaktime cutoff p amp is_c tim = .ok c1)
    (hc : sources_in_range c) : sources_in_range c1 := by
  unfold fields_chunk.add_point_source at h
  by_cases hd : p.dim ≠ c.v.dim
  · rw [if_pos hd] at h
    cases h
  · rw [if_neg hd] at h
    by_cases hf : ¬ c.v.has_field whichf = true
    · rw [if_pos hf] at h
      cases h
    · rw [if_neg hf] at h
      by_cases hw : (c.v.interpolate whichf p).2 0 = 0
      · simp only [hw, if_true, Except.ok.injEq] at h
        rw [← h]
        exact hc
      · simp only [hw, if_false] at h
        exact add_point_source_loop_in_range lm whichf freq width peaktime (to_int cutoff)
          _ _ amp _ is_c tim 8 0 c c1 h hc

/-- One pass of the cylindrical plane-source loop keeps the indices of the nodes
inside the grid. -/
theorem add_plane_source_cyl_step_in_range (lm : libm R) (freq width peaktime cutoff : R)
    (envelope : vec R → R) (z eps : R) (is_c : Int) (time : R) (ir : Int)
    (c c4 : fields_chunk R)
    (h : add_plane_source_cyl_step lm freq width peaktime cutoff envelope z eps is_c time
      ir c = .ok c4)
    (hc : sources_in_range c) : sources_in_range c4 := by
  unfold add_plane_source_cyl_step at h
  simp only [bind, Except.bind] at h
  split at h
  · cases h
  · rename_i c1 h1
    have hc1 := add_point_source_in_range lm c c1 _ _ _ _ _ _ _ _ _ h1 hc
    split at h
    · cases h
    · rename_i c2 h2
      have hc2 := add_point_source_in_range lm c1 c2 _ _ _ _ _ _ _ _ _ h2 hc1
      split at h
      · cases h
      · rename_i c3 h3
        have hc3 := add_point_source_in_range lm c2 c3 _ _ _ _ _ _ _ _ _ h3 hc2
        exact add_point_source_in_range lm c3 c4 _ _ _ _ _ _ _ _ _ h hc3

/-- The cylindrical plane-source loop keeps the indices of the nodes inside the
grid. -/
theorem add_plane_source_cyl_loop_in_range (lm : libm R) (freq width peaktime cutoff : R)
    (envelope : vec R → R) (z eps : R) (is_c : Int) (time : R) :
    ∀ (n : Nat) (ir : Int) (c c1 : fields_chunk R),
      add_plane_source_cyl_loop lm freq width peaktime cutoff envelope z eps is_c time
        n ir c = .ok c1 →
      sources_in_range c → sources_in_range c1 := by
  intro n
  induction n with
  | zero =>
    intro ir c c1 h hc
    simp only [add_plane_source_cyl_loop, Except.ok.injEq] at h
    rw [← h]
    exact hc
  | succ n ih =>
    intro ir c c1 h hc
    unfold add_plane_source_cyl_loop at h
    cases hstep : add_plane_source_cyl_step lm freq width peaktime cutoff envelope z eps
        is_c time ir c with
    | error e =>
      rw [hstep] at h
      cases h
    | ok c2 =>
      rw [hstep] at h
      exact ih (ir + 1) c2 c1 h
        (add_plane_source_cyl_step_in_range lm freq width peaktime cutoff envelope z eps
          is_c time ir c c2 hstep hc)

/-- A successful `add_plane_source` keeps the indices of the nodes inside the
grid. -/
theorem add_plane_source_in_range (lm : libm R) (c c1 : fields_chunk R)
    (freq width peaktime cutoff : R) (envelope : vec R → R) (p : vec R) (is_c : Int)
    (time : R)
    (h : c.add_plane_source lm freq width peaktime cutoff envelope p is_c time = .ok c1)
    (hc : sources_in_range c) : sources_in_range c1 := by
  unfold fields_chunk.add_plane_source at h
  by_cases hcyl : c.v.dim = .dcyl
  · rw [if_pos hcyl] at h
    by_cases hm : c.m ≠ 1
    · rw [if_pos hm] at h
      cases h
    · rw [if_neg hm] at h
      exact add_plane_source_cyl_loop_in_range lm freq width peaktime cutoff envelope _ _
        is_c time _ _ c c1 h hc
  · rw [if_neg hcyl] at h
    by_cases h1d : c.v.dim = .d1
    · rw [if_pos h1d] at h
      cases hex : c.add_point_source lm .Ex freq width peaktime cutoff (vec.mk1 p.z)
          (complex.ofReal (envelope (vec.mk1 p.z))) is_c time with
      | error e =>
        simp only [hex] at h
        cases h
      | ok c2 =>
        simp only [hex] at h
        exact add_point_source_in_range lm c2 c1 _ _ _ _ _ _ _ _ _ h
          (add_point_source_in_range lm c c2 _ _ _ _ _ _ _ _ _ hex hc)
    · rw [if_neg h1d] at h
      cases h

/-- C11: `add_indexed_source` aborts exactly when `theindex < 0` or
`theindex >= ntot` (the error result carries no chunk: nothing is created or
linked); a call that returns had its index inside the grid, stores it in the new
node, and leaves `ntot` as it was.  Consequently the property that every node of
both lists has a grid index `0 <= i < ntot` holds of empty lists and is kept by
`add_indexed_source` and by its callers `add_point_source` and
`add_plane_source`. -/
theorem C11_index_in_range (lm : libm R) (c : fields_chunk R) (whichf : component)
    (f W pk : R) (cut idx : Int) (amp : complex R) (is_c : Int) (T : R) :
    ((∃ e, c.add_indexed_source lm whichf f W pk cut idx amp is_c T = .error e) ↔
      (idx < 0 ∨ idx ≥ c.v.ntot)) ∧
    (∀ c1, c.add_indexed_source lm whichf f W pk cut idx amp is_c T = .ok c1 →
      (0 ≤ idx ∧ idx < c.v.ntot) ∧ c1.v.ntot = c.v.ntot ∧
      (∃ node, c1.sources whichf = node :: c.sources whichf ∧ node.i = idx) ∧
      (sources_in_range c → sources_in_range c1)) ∧
    (c.e_sources = [] → c.h_sources = [] → sources_in_range c) ∧
    (∀ (x : R) (p : vec R) (c1 : fields_chunk R),
      c.add_point_source lm whichf f W pk x p amp is_c T = .ok c1 →
      sources_in_range c → sources_in_range c1) ∧
    (∀ (x : R) (envelope : vec R → R) (p : vec R) (c1 : fields_chunk R),
      c.add_plane_source lm f W pk x envelope p is_c T = .ok c1 →
      sources_in_range c → sources_in_range c1) := by
  refine ⟨⟨?_, ?_⟩, ?_, ?_, ?_, ?_⟩
  · rintro ⟨e, he⟩
    by_contra hr
    have h0 : 0 ≤ idx := by omega
    have h1 : idx < c.v.ntot := by omega
    obtain ⟨c1, hok⟩ := add_indexed_source_isOk lm c whichf f W pk cut idx amp is_c T h0 h1
    rw [hok] at he
    cases he
  · intro hr
    exact ⟨_, add_indexed_source_error lm c whichf f W pk cut idx amp is_c T
      (by omega)⟩
  · intro c1 h
    obtain ⟨h1, _, h3, _, _, _, _, h8, h9⟩ :=
      add_indexed_source_ok lm c c1 whichf f W pk cut idx amp is_c T h
    refine ⟨⟨h8, h9⟩, by rw [h3], ⟨_, h1, ?_⟩, add_indexed_source_in_range lm c c1 whichf
      f W pk cut idx amp is_c T h⟩
    exact (finished_src_fields lm c.inva whichf f W pk cut idx amp is_c T).2.2.2.2.1
  · intro he hh s hs
    rw [he, hh] at hs
    cases hs
  · intro x p c1 h
    exact add_point_source_in_range lm c c1 whichf f W pk x p amp is_c T h
  · intro x envelope p c1 h
    exact add_plane_source_in_range lm c c1 f W pk x envelope p is_c T h

/-- C12: a successful `add_indexed_source` for the component `whichf` puts one
new node at the head of `h_sources` when `is_magnetic(whichf)`, otherwise at the
head of `e_sources`; the former list follows it unchanged and the other list is
unchanged.  The new node has `A[whichf] = amp` and every other component
amplitude zero. -/
theorem C12_prepend (lm : libm R) (c c1 : fields_chunk R) (whichf : component)
    (f W pk : R) (cut idx : Int) (amp : complex R) (is_c : Int) (T : R)
    (h : c.add_indexed_source lm whichf f W pk cut idx amp is_c T = .ok c1) :
    ∃ node : src R,
      (is_magnetic whichf = true →
        c1.h_sources = node :: c.h_sources ∧ c1.e_sources = c.e_sources) ∧
      (is_magnetic whichf = false →
        c1.e_sources = node :: c.e_sources ∧ c1.h_sources = c.h_sources) ∧
      node.A whichf = amp ∧ (∀ com, com ≠ whichf → node.A com = 0) := by
  obtain ⟨h1, h2, _⟩ := add_indexed_source_ok lm c c1 whichf f W pk cut idx amp is_c T h
  have hA := (finished_src_fields lm c.inva whichf f W pk cut idx amp is_c T).2.2.2.2.2.2
  simp only at hA
  refine ⟨finished_src lm c.inva whichf f W pk cut idx amp is_c T, ?_, ?_, ?_, ?_⟩
  · intro hm
    rw [(sources_magnetic c1 whichf hm).1, (sources_magnetic c whichf hm).1] at h1
    rw [(sources_magnetic c1 whichf hm).2, (sources_magnetic c whichf hm).2] at h2
    exact ⟨h1, h2⟩
  · intro hm
    rw [(sources_electric c1 whichf hm).1, (sources_electric c whichf hm).1] at h1
    rw [(sources_electric c1 whichf hm).2, (sources_electric c whichf hm).2] at h2
    exact ⟨h1, h2⟩
  · rw [hA]
    simp only [if_true]
  · intro com hcom
    rw [hA]
    simp only [hcom, if_false]

/-- C12, an instance: a magnetic component on a chunk without sources. -/
theorem C12_prepend_witness :
    ∃ (c1 : fields_chunk ℝ) (node : src ℝ),
      (example_chunk .d1 (fun j => j) run_weights).add_indexed_source
        ⟨Real.exp, Real.cos, Real.sin, Real.sqrt, Real.pi⟩ .Hy (1 / 5) 5 0 5 3 ⟨1, 0⟩ 0 0
        = .ok c1 ∧
      c1.h_sources = [node] ∧ c1.e_sources = [] ∧ node.A .Hy = ⟨1, 0⟩ ∧ node.A .Ex = 0 := by
  obtain ⟨c1, h⟩ := add_indexed_source_isOk
    (⟨Real.exp, Real.cos, Real.sin, Real.sqrt, Real.pi⟩ : libm ℝ)
    (example_chunk .d1 (fun j => j) run_weights) .Hy (1 / 5) 5 0 5 3 ⟨1, 0⟩ 0 0
    (by norm_num) (by simp [example_chunk])
  obtain ⟨node, h1, _, h3, h4⟩ := C12_prepend _ _ c1 _ _ _ _ _ _ _ _ _ h
  obtain ⟨h5, h6⟩ := h1 rfl
  exact ⟨c1, node, h, h5, h6, h3, h4 .Ex (by decide)⟩

/-- C13: with the continuity flag set the created node has `amp_shift` equal to
the complex zero and the integrators are not used (the chunk that results is the
same whatever the library functions, which enter through the integrators only);
without the flag `amp_shift` is `integrate_source / integrate_envelope`, both
evaluated on the node with `amp_shift = 0` and the time step `inva`. -/
theorem C13_amp_shift (lm : libm R) (c c1 : fields_chunk R) (whichf : component)
    (f W pk : R) (cut idx : Int) (amp : complex R) (is_c : Int) (T : R)
    (h : c.add_indexed_source lm whichf f W pk cut idx amp is_c T = .ok c1) :
    ∃ node : src R, c1.sources whichf = node :: c.sources whichf ∧
      (is_c ≠ 0 → node.amp_shift = 0 ∧
        ∀ lm2 : libm R, c.add_indexed_source lm2 whichf f W pk cut idx amp is_c T = .ok c1) ∧
      (is_c = 0 → node.amp_shift =
        integrate_source lm ({ node with amp_shift := 0 } : src R) c.inva /
          integrate_envelope lm ({ node with amp_shift := 0 } : src R) c.inva) := by
  obtain ⟨h1, _, _, _, _, _, _, h8, h9⟩ :=
    add_indexed_source_ok lm c c1 whichf f W pk cut idx amp is_c T h
  refine ⟨finished_src lm c.inva whichf f W pk cut idx amp is_c T, h1, ?_, ?_⟩
  · intro hc
    have hfin : ∀ lm2 : libm R, finished_src lm2 c.inva whichf f W pk cut idx amp is_c T =
        { new_src c.inva whichf f W pk cut idx amp is_c T with amp_shift := 0 } := by
      intro lm2
      unfold finished_src
      simp only [hc, ne_eq, not_false_eq_true, if_true]
    constructor
    · rw [hfin lm]
    · intro lm2
      rw [← h, add_indexed_source_eq lm2 c whichf f W pk cut idx amp is_c T h8 h9,
        add_indexed_source_eq lm c whichf f W pk cut idx amp is_c T h8 h9, hfin lm2, hfin lm]
  · intro hc
    subst hc
    have hfin : finished_src lm c.inva whichf f W pk cut idx amp 0 T =
        { new_src c.inva whichf f W pk cut idx amp 0 T with
          amp_shift := integrate_source lm (new_src c.inva whichf f W pk cut idx amp 0 T)
              c.inva /
            integrate_envelope lm (new_src c.inva whichf f W pk cut idx amp 0 T) c.inva } := by
      unfold finished_src
      simp only [ne_eq, not_true_eq_false, if_false]
    rw [hfin]
    rfl

/-- C13, an instance: a continuous source. -/
theorem C13_amp_shift_witness :
    ∃ (c1 : fields_chunk ℝ) (node : src ℝ),
      (example_chunk .d1 (fun j => j) run_weights).add_indexed_source
        ⟨Real.exp, Real.cos, Real.sin, Real.sqrt, Real.pi⟩ .Ex (1 / 5) 5 0 5 0 ⟨1, 0⟩ 1 0
        = .ok c1 ∧
      c1.sources .Ex = [node] ∧ node.amp_shift = 0 := by
  obtain ⟨c1, h⟩ := add_indexed_source_isOk
    (⟨Real.exp, Real.cos, Real.sin, Real.sqrt, Real.pi⟩ : libm ℝ)
    (example_chunk .d1 (fun j => j) run_weights) .Ex (1 / 5) 5 0 5 0 ⟨1, 0⟩ 1 0
    (le_refl _) (by simp [example_chunk])
  obtain ⟨node, h1, h2, _⟩ := C13_amp_shift _ _ c1 _ _ _ _ _ _ _ _ _ h
  exact ⟨c1, node, h, h1, (h2 (by norm_num)).1⟩

/-- C14: chunk-level `add_point_source` aborts (the error result carries no chunk)
whenever the dimensionality of the position differs from the grid's or the
component is not a field of the grid; when neither holds and the indices of the
leading run of nonzero weights are inside the grid, it returns. -/
theorem C14_point_source_aborts (lm : libm R) (c : fields_chunk R) (whichf : component)
    (freq width peaktime cutoff : R) (p : vec R) (amp : complex R) (is_c : Int) (tim : R) :
    ((p.dim ≠ c.v.dim ∨ c.v.has_field whichf = false) →
      ∃ e, c.add_point_source lm whichf freq width peaktime cutoff p amp is_c tim
        = .error e) ∧
    (p.dim = c.v.dim → c.v.has_field whichf = true →
      (∀ j, j < leading_nonzero (c.v.interpolate whichf p).2 8 0 →
        0 ≤ (c.v.interpolate whichf p).1 j ∧ (c.v.interpolate whichf p).1 j < c.v.ntot) →
      ∃ c1, c.add_point_source lm whichf freq width peaktime cutoff p amp is_c tim
        = .ok c1) := by
  constructor
  · intro hbad
    unfold fields_chunk.add_point_source
    by_cases hd : p.dim ≠ c.v.dim
    · rw [if_pos hd]
      exact ⟨_, rfl⟩
    · rw [if_neg hd]
      rcases hbad with hbad | hbad
      · exact absurd hbad hd
      · rw [if_pos (by rw [hbad]; decide)]
        exact ⟨_, rfl⟩
  · intro hd hf hin
    exact add_point_source_isOk lm c whichf freq width peaktime cutoff p amp is_c tim hd hf
      hin

/-- C14, an instance: a cylindrical position on a 1-D grid aborts, and a 1-D
position with weights `1/2, 1/4, 1/4, 0, ...` returns. -/
theorem C14_point_source_aborts_witness :
    (∃ e, (example_chunk .d1 (fun j => j) run_weights).add_point_source
        ⟨Real.exp, Real.cos, Real.sin, Real.sqrt, Real.pi⟩ .Ex 1 1 0 1 (vec.mkcyl 0 0)
        (⟨1, 0⟩ : complex ℝ) 0 0 = .error e) ∧
    (∃ c1, (example_chunk .d1 (fun j => j) run_weights).add_point_source
        ⟨Real.exp, Real.cos, Real.sin, Real.sqrt, Real.pi⟩ .Ex 1 1 0 1 (vec.mk1 0)
        (⟨1, 0⟩ : complex ℝ) 0 0 = .ok c1) := by
  constructor
  · exact (C14_point_source_aborts
      (⟨Real.exp, Real.cos, Real.sin, Real.sqrt, Real.pi⟩ : libm ℝ)
      (example_chunk .d1 (fun j => j) run_weights) .Ex 1 1 0 1 (vec.mkcyl 0 0) ⟨1, 0⟩ 0
      0).1 (Or.inl (by decide))
  · refine (C14_point_source_aborts
      (⟨Real.exp, Real.cos, Real.sin, Real.sqrt, Real.pi⟩ : libm ℝ)
      (example_chunk .d1 (fun j => j) run_weights) .Ex 1 1 0 1 (vec.mk1 0) ⟨1, 0⟩ 0
      0).2 rfl rfl ?_
    intro j hj
    have := leading_nonzero_le (run_weights : Nat → ℝ) 8 0
    simp only [example_chunk] at hj ⊢
    constructor <;> omega

end Lists

/-! ## The first sample of the integrators (C16, C17, C19) -/

theorem abs_gt_of_lt_neg {R : Type} [LinearOrderedField R] (x y : R) (h : x < -y) :
    |x| > y :=
  lt_of_lt_of_le (by linarith) (neg_le_abs x)

section FirstSample
variable {R : Type} [LinearOrderedField R] [FloorRing R]

theorem to_int_bounds_nonneg (x : R) (hx : 0 ≤ x) :
    ((to_int x : Int) : R) ≤ x ∧ x < ((to_int x : Int) : R) + 1 := by
  unfold to_int
  rw [if_pos hx]
  exact ⟨Int.floor_le x, Int.lt_floor_add_one x⟩

theorem to_int_bounds_neg (x : R) (hx : x < 0) :
    x ≤ ((to_int x : Int) : R) ∧ ((to_int x : Int) : R) - 1 < x := by
  unfold to_int
  rw [if_neg (not_le.mpr hx)]
  refine ⟨Int.le_ceil x, ?_⟩
  have := Int.ceil_lt_add_one x
  linarith

/-- C16 (amended): for a positive time step `inva` and a quotient
`(peaktime - cutoff)/inva` that the conversion to `int` is defined on
(`fits_int`), the first sample index `k0` of both integrators is that quotient
truncated toward zero.  When `peaktime - cutoff` is not negative,
`k0 * inva <= peaktime - cutoff < (k0 + 1) * inva`: the first step at or before
it.  When it is negative, `(k0 - 1) * inva < peaktime - cutoff <= k0 * inva`:
the first step at or after it. -/
theorem C16_first_index (s : src R) (inva : R) (hinva : 0 < inva)
    (_hr : fits_int ((s.peaktime - s.cutoff) / inva)) :
    (0 ≤ s.peaktime - s.cutoff →
      (first_index s inva : R) * inva ≤ s.peaktime - s.cutoff ∧
      s.peaktime - s.cutoff < ((first_index s inva : R) + 1) * inva) ∧
    (s.peaktime - s.cutoff < 0 →
      s.peaktime - s.cutoff ≤ (first_index s inva : R) * inva ∧
      ((first_index s inva : R) - 1) * inva < s.peaktime - s.cutoff) := by
  unfold first_index
  constructor
  · intro hx
    obtain ⟨h1, h2⟩ := to_int_bounds_nonneg ((s.peaktime - s.cutoff) / inva)
      (div_nonneg hx hinva.le)
    exact ⟨(le_div_iff₀ hinva).mp h1, (div_lt_iff₀ hinva).mp h2⟩
  · intro hx
    obtain ⟨h1, h2⟩ := to_int_bounds_neg ((s.peaktime - s.cutoff) / inva)
      (div_neg_of_neg_of_pos hx hinva)
    exact ⟨(div_le_iff₀ hinva).mp h1, (lt_div_iff₀ hinva).mp h2⟩

/-- C16, an instance: peak time `0`, cutoff `1/4`, time step `1/2`; the first
index is `0`, the first step after `-1/4`. -/
theorem C16_first_index_witness :
    (example_src (1 / 4 : ℝ) 0).peaktime - (example_src (1 / 4 : ℝ) 0).cutoff
        ≤ (first_index (example_src (1 / 4 : ℝ) 0) (1 / 2) : ℝ) * (1 / 2) ∧
    ((first_index (example_src (1 / 4 : ℝ) 0) (1 / 2) : ℝ) - 1) * (1 / 2)
        < (example_src (1 / 4 : ℝ) 0).peaktime - (example_src (1 / 4 : ℝ) 0).cutoff :=
  (C16_first_index (example_src (1 / 4 : ℝ) 0) (1 / 2) (by norm_num)
    (by constructor <;> norm_num [example_src])).2 (by norm_num [example_src])

/-- C16 as stated fails for a negative `peaktime - cutoff`: with peak time `0`,
cutoff `1/4` and time step `1/2` the first index is `0`, and `0 * inva` is above
`peaktime - cutoff = -1/4`. -/
theorem C16_counterexample :
    (0 : ℝ) < 1 / 2 ∧
    first_index (example_src (1 / 4 : ℝ) 0) (1 / 2) = 0 ∧
    ¬ ((first_index (example_src (1 / 4 : ℝ) 0) (1 / 2) : ℝ) * (1 / 2)
        ≤ (example_src (1 / 4 : ℝ) 0).peaktime - (example_src (1 / 4 : ℝ) 0).cutoff) := by
  have hk : first_index (example_src (1 / 4 : ℝ) 0) (1 / 2) = 0 := by
    unfold first_index to_int
    rw [if_neg (by norm_num [example_src]), Int.ceil_eq_iff]
    constructor <;> norm_num [example_src]
  refine ⟨by norm_num, hk, ?_⟩
  rw [hk]
  norm_num [example_src]

/-- C17: when the envelope is zero at the first sampled time, which is the case
for a non-continuous source whose first sample lies strictly before
`peaktime - cutoff`, both integrators return zero whatever the envelope is at
later samples (the conversion that gives the first index being defined).  The
shift that `add_indexed_source` stores in a non-continuous node is the quotient of
`integrate_source` by `integrate_envelope` on the node with shift zero, so for
such a node it is the quotient of a zero by a zero; the statement names the two
operands and gives no value to that quotient. -/
theorem C17_zero_first_sample (lm : libm R) (inva : R) (c c1 : fields_chunk R)
    (whichf : component) (f W pk : R) (cut idx : Int) (amp : complex R) (T : R)
    (h : c.add_indexed_source lm whichf f W pk cut idx amp 0 T = .ok c1) :
    (∀ s : src R, fits_int ((s.peaktime - s.cutoff) / inva) → s.is_continuous = 0 →
      (first_index s inva : R) * inva < s.peaktime - s.cutoff →
      s.get_envelope_at_time lm ((first_index s inva : R) * inva) = 0) ∧
    (∀ s : src R, fits_int ((s.peaktime - s.cutoff) / inva) →
      s.get_envelope_at_time lm ((first_index s inva : R) * inva) = 0 →
      integrate_envelope lm s inva = 0 ∧ integrate_source lm s inva = 0) ∧
    ∃ node : src R, c1.sources whichf = node :: c.sources whichf ∧
      node.is_continuous = 0 ∧
      node.amp_shift =
        integrate_source lm ({ node with amp_shift := 0 } : src R) c.inva /
          integrate_envelope lm ({ node with amp_shift := 0 } : src R) c.inva ∧
      (fits_int ((node.peaktime - node.cutoff) / c.inva) →
        node.get_envelope_at_time lm ((first_index node c.inva : R) * c.inva) = 0 →
        integrate_source lm ({ node with amp_shift := 0 } : src R) c.inva = 0 ∧
        integrate_envelope lm ({ node with amp_shift := 0 } : src R) c.inva = 0) := by
  obtain ⟨h1, _⟩ := add_indexed_source_ok lm c c1 whichf f W pk cut idx amp 0 T h
  have hfin : finished_src lm c.inva whichf f W pk cut idx amp 0 T =
      { new_src c.inva whichf f W pk cut idx amp 0 T with
        amp_shift := integrate_source lm (new_src c.inva whichf f W pk cut idx amp 0 T)
            c.inva /
          integrate_envelope lm (new_src c.inva whichf f W pk cut idx amp 0 T) c.inva } := by
    unfold finished_src
    simp only [ne_eq, not_true_eq_false, if_false]
  refine ⟨?_, ?_, finished_src lm c.inva whichf f W pk cut idx amp 0 T, h1, ?_, ?_, ?_⟩
  · intro s _ hnc hlt
    apply envelope_outside lm s _ (Or.inl hnc)
    apply abs_gt_of_lt_neg
    linarith
  · intro s _ hzero
    exact integrators_zero_of_first_zero lm s inva hzero
  · rw [hfin]
    rfl
  · rw [hfin]
    rfl
  · intro _ hzero
    rw [hfin] at hzero
    obtain ⟨hE, hS⟩ := integrators_zero_of_first_zero lm
      (new_src c.inva whichf f W pk cut idx amp 0 T) c.inva hzero
    rw [hfin]
    exact ⟨hS, hE⟩

/-- The late-starting node of time step `1/2`, frequency and width `1`, peak time
`13/4` and cutoff multiple `1`: its cutoff is `3/2`, its first sample index `3`,
and its envelope is zero there. -/
theorem late_start_node :
    (finished_src ⟨Real.exp, Real.cos, Real.sin, Real.sqrt, Real.pi⟩ (1 / 2 : ℝ) .Ex 1 1
      (13 / 4) 1 0 ⟨1, 0⟩ 0 0).cutoff = 3 / 2 ∧
    (finished_src ⟨Real.exp, Real.cos, Real.sin, Real.sqrt, Real.pi⟩ (1 / 2 : ℝ) .Ex 1 1
      (13 / 4) 1 0 ⟨1, 0⟩ 0 0).peaktime = 13 / 4 ∧
    first_index (finished_src ⟨Real.exp, Real.cos, Real.sin, Real.sqrt, Real.pi⟩
      (1 / 2 : ℝ) .Ex 1 1 (13 / 4) 1 0 ⟨1, 0⟩ 0 0) (1 / 2) = 3 ∧
    (finished_src ⟨Real.exp, Real.cos, Real.sin, Real.sqrt, Real.pi⟩ (1 / 2 : ℝ) .Ex 1 1
      (13 / 4) 1 0 ⟨1, 0⟩ 0 0).get_envelope_at_time
      ⟨Real.exp, Real.cos, Real.sin, Real.sqrt, Real.pi⟩ (((3 : Int) : ℝ) * (1 / 2)) = 0 := by
  obtain ⟨_, _, hcut, hpk, _, hc, _⟩ := finished_src_fields
    (⟨Real.exp, Real.cos, Real.sin, Real.sqrt, Real.pi⟩ : libm ℝ) (1 / 2 : ℝ) .Ex 1 1
    (13 / 4) 1 0 ⟨1, 0⟩ 0 0
  have e : ((1 : Int) : ℝ) * (1 / 1) = ((1 : Int) : ℝ) := by norm_num
  rw [e, to_int_intCast] at hcut
  have hcut2 : (finished_src ⟨Real.exp, Real.cos, Real.sin, Real.sqrt, Real.pi⟩ (1 / 2 : ℝ)
      .Ex 1 1 (13 / 4) 1 0 ⟨1, 0⟩ 0 0).cutoff = 3 / 2 := by
    rw [hcut]
    norm_num
  rw [if_neg (by norm_num)] at hpk
  have hfirst : first_index (finished_src ⟨Real.exp, Real.cos, Real.sin, Real.sqrt, Real.pi⟩
      (1 / 2 : ℝ) .Ex 1 1 (13 / 4) 1 0 ⟨1, 0⟩ 0 0) (1 / 2) = 3 := by
    unfold first_index
    rw [hcut2, hpk]
    unfold to_int
    rw [if_pos (by norm_num), Int.floor_eq_iff]
    constructor <;> norm_num
  refine ⟨hcut2, hpk, hfirst, ?_⟩
  apply envelope_outside _ _ _ (Or.inl hc)
  rw [hcut2, hpk]
  norm_num [abs_of_neg]

/-- C17, an instance: the late-starting source with `peaktime = 13/4`, cutoff
`3/2` and time step `1/2`, whose first sample is at time `3/2`: the node stores
the quotient of the two integrals, and both are zero. -/
theorem C17_zero_first_sample_witness :
    ∃ (c1 : fields_chunk ℝ) (node : src ℝ),
      (example_chunk .d1 (fun j => j) run_weights).add_indexed_source
        ⟨Real.exp, Real.cos, Real.sin, Real.sqrt, Real.pi⟩ .Ex 1 1 (13 / 4) 1 0 ⟨1, 0⟩ 0 0
        = .ok c1 ∧
      c1.sources .Ex = [node] ∧
      node.amp_shift =
        integrate_source ⟨Real.exp, Real.cos, Real.sin, Real.sqrt, Real.pi⟩
            ({ node with amp_shift := 0 } : src ℝ) (1 / 2) /
          integrate_envelope ⟨Real.exp, Real.cos, Real.sin, Real.sqrt, Real.pi⟩
            ({ node with amp_shift := 0 } : src ℝ) (1 / 2) ∧
      integrate_source ⟨Real.exp, Real.cos, Real.sin, Real.sqrt, Real.pi⟩
        ({ node with amp_shift := 0 } : src ℝ) (1 / 2) = 0 ∧
      integrate_envelope ⟨Real.exp, Real.cos, Real.sin, Real.sqrt, Real.pi⟩
        ({ node with amp_shift := 0 } : src ℝ) (1 / 2) = 0 := by
  obtain ⟨c1, h⟩ := add_indexed_source_isOk
    (⟨Real.exp, Real.cos, Real.sin, Real.sqrt, Real.pi⟩ : libm ℝ)
    (example_chunk .d1 (fun j => j) run_weights) .Ex 1 1 (13 / 4) 1 0 ⟨1, 0⟩ 0 0
    (le_refl _) (by simp [example_chunk])
  obtain ⟨hok, _⟩ := add_indexed_source_ok _ _ c1 _ _ _ _ _ _ _ _ _ h
  obtain ⟨_, _, node, hn1, _, hn3, hn4⟩ :=
    C17_zero_first_sample _ (1 / 2 : ℝ) _ c1 _ _ _ _ _ _ _ _ h
  have hnode : node = finished_src ⟨Real.exp, Real.cos, Real.sin, Real.sqrt, Real.pi⟩
      (1 / 2 : ℝ) .Ex 1 1 (13 / 4) 1 0 ⟨1, 0⟩ 0 0 := by
    have := hn1.symm.trans hok
    exact (List.cons_eq_cons.mp this).1
  obtain ⟨hcut, hpk, hfirst, henv⟩ := late_start_node
  have hinva : (example_chunk .d1 (fun j => j) (run_weights : Nat → ℝ)).inva = 1 / 2 := rfl
  rw [hinva] at hn3 hn4
  have hz := hn4 (by rw [hnode, hcut, hpk]; constructor <;> norm_num)
    (by rw [hnode, hfirst]; exact henv)
  exact ⟨c1, node, h, hn1, hn3, hz.1, hz.2⟩

/-- C19 (amended): a node created by `add_indexed_source` with `peaktime <= 0` at
simulation time `T` has envelope and amplitude zero at every time `t < T`,
provided the node is not continuous or its stored cutoff is not negative. -/
theorem C19_nothing_before_now (lm : libm R) (c c1 : fields_chunk R) (whichf : component)
    (f W pk : R) (cut idx : Int) (amp : complex R) (is_c : Int) (T : R)
    (h : c.add_indexed_source lm whichf f W pk cut idx amp is_c T = .ok c1)
    (hpk : pk ≤ 0) :
    ∃ node : src R, c1.sources whichf = node :: c.sources whichf ∧
      (is_c = 0 ∨ 0 ≤ node.cutoff →
        ∀ t, t < T → node.get_envelope_at_time lm t = 0 ∧
          node.get_amplitude_at_time lm t = 0) := by
  obtain ⟨h1, _⟩ := add_indexed_source_ok lm c c1 whichf f W pk cut idx amp is_c T h
  obtain ⟨_, _, _, hp, _, hc, _⟩ :=
    finished_src_fields lm c.inva whichf f W pk cut idx amp is_c T
  refine ⟨_, h1, ?_⟩
  intro hcase t ht
  rw [if_pos hpk] at hp
  have henv : (finished_src lm c.inva whichf f W pk cut idx amp is_c T).get_envelope_at_time
      lm t = 0 := by
    apply envelope_outside
    · rcases hcase with h0 | h0
      · left
        rw [hc, h0]
      · right
        rw [hp]
        linarith
    · apply abs_gt_of_lt_neg
      rw [hp]
      linarith
  exact ⟨henv, amplitude_of_envelope_zero lm _ t henv⟩

/-- C19, an instance: `f = 0.2`, `W = 5`, `c = 5`, not continuous, created at
time `3`; the envelope is zero at time `2`. -/
theorem C19_nothing_before_now_witness :
    ∃ (c1 : fields_chunk ℝ) (node : src ℝ),
      (example_chunk .d1 (fun j => j) run_weights).add_indexed_source
        ⟨Real.exp, Real.cos, Real.sin, Real.sqrt, Real.pi⟩ .Ex (1 / 5) 5 0 5 0 ⟨1, 0⟩ 0 3
        = .ok c1 ∧
      c1.sources .Ex = [node] ∧
      node.get_envelope_at_time ⟨Real.exp, Real.cos, Real.sin, Real.sqrt, Real.pi⟩ 2 = 0 ∧
      node.get_amplitude_at_time ⟨Real.exp, Real.cos, Real.sin, Real.sqrt, Real.pi⟩ 2
        = 0 := by
  obtain ⟨c1, h⟩ := add_indexed_source_isOk
    (⟨Real.exp, Real.cos, Real.sin, Real.sqrt, Real.pi⟩ : libm ℝ)
    (example_chunk .d1 (fun j => j) run_weights) .Ex (1 / 5) 5 0 5 0 ⟨1, 0⟩ 0 3
    (le_refl _) (by simp [example_chunk])
  obtain ⟨node, h1, h2⟩ := C19_nothing_before_now _ _ c1 _ _ _ _ _ _ _ _ _ h (le_refl _)
  obtain ⟨h3, h4⟩ := h2 (Or.inl rfl) 2 (by norm_num)
  exact ⟨c1, node, h, h1, h3, h4⟩

/-- C19 as stated fails for a continuous node with a negative stored cutoff:
created at time `0` with cutoff multiple `-1` (`W = 1`, `f = 1`, time step `1/2`),
the node has cutoff `-1/2` and peak time `-1/2`, and its envelope at time `-1/4`,
before the time of creation, is `1`. -/
theorem C19_counterexample :
    ∃ (c1 : fields_chunk ℝ) (node : src ℝ),
      (example_chunk .d1 (fun j => j) run_weights).add_indexed_source
        ⟨Real.exp, Real.cos, Real.sin, Real.sqrt, Real.pi⟩ .Ex 1 1 0 (-1) 0 ⟨1, 0⟩ 1 0
        = .ok c1 ∧
      c1.sources .Ex = [node] ∧ (-1 / 4 : ℝ) < 0 ∧
      node.get_envelope_at_time ⟨Real.exp, Real.cos, Real.sin, Real.sqrt, Real.pi⟩ (-1 / 4)
        = 1 := by
  obtain ⟨c1, h⟩ := add_indexed_source_isOk
    (⟨Real.exp, Real.cos, Real.sin, Real.sqrt, Real.pi⟩ : libm ℝ)
    (example_chunk .d1 (fun j => j) run_weights) .Ex 1 1 0 (-1) 0 ⟨1, 0⟩ 1 0
    (le_refl _) (by simp [example_chunk])
  obtain ⟨h1, _⟩ := add_indexed_source_ok _ _ c1 _ _ _ _ _ _ _ _ _ h
  refine ⟨c1, _, h, h1, by norm_num, ?_⟩
  obtain ⟨_, _, hcut, hp, _, hc, _⟩ := finished_src_fields
    (⟨Real.exp, Real.cos, Real.sin, Real.sqrt, Real.pi⟩ : libm ℝ)
    (example_chunk .d1 (fun j => j) (run_weights : Nat → ℝ)).inva .Ex 1 1 0 (-1) 0 ⟨1, 0⟩ 1 0
  have e : ((-1 : Int) : ℝ) * (1 / 1) = ((-1 : Int) : ℝ) := by norm_num
  rw [e, to_int_intCast] at hcut
  rw [if_pos (le_refl _), hcut] at hp
  apply envelope_continuous_after
  · rw [hc]
    norm_num
  · rw [hp]
    norm_num [example_chunk]

end FirstSample

/-! ## The samples of the two integrators (C18) -/

section Samples
variable {R : Type} [LinearOrderedField R]

/-- The loop of `integrate_envelope` adds the envelope at the samples it visits. -/
theorem integrate_envelope_loop_samples (lm : libm R) (s : src R) (inva : R) :
    ∀ (fuel : Nat) (t : Int) (sofar : R),
      integrate_envelope_loop lm s inva fuel t sofar =
        sofar + ((integrate_envelope_samples lm s inva fuel t).map
          (fun k : Int => s.get_envelope_at_time lm (k * inva))).sum := by
  intro fuel
  induction fuel with
  | zero =>
    intro t sofar
    simp only [integrate_envelope_loop, integrate_envelope_samples, List.map_nil,
      List.sum_nil, add_zero]
  | succ n ih =>
    intro t sofar
    unfold integrate_envelope_loop integrate_envelope_samples
    by_cases he : s.get_envelope_at_time lm (t * inva) = 0
    · simp only [he, if_true, List.map_cons, List.map_nil, List.sum_cons, List.sum_nil,
        add_zero]
    · simp only [he, if_false, List.map_cons, List.sum_cons]
      rw [ih, add_assoc]

/-- The loop of `integrate_source` adds the amplitude at the samples it visits. -/
theorem integrate_source_loop_samples (lm : libm R) (s : src R) (inva : R) :
    ∀ (fuel : Nat) (t : Int) (sofar : complex R),
      integrate_source_loop lm s inva fuel t sofar =
        sofar + complex_sum ((integrate_source_samples lm s inva fuel t).map
          (fun k : Int => s.get_amplitude_at_time lm (k * inva))) := by
  intro fuel
  induction fuel with
  | zero =>
    intro t sofar
    simp only [integrate_source_loop, integrate_source_samples, List.map_nil,
      complex_sum, complex_add_zero]
  | succ n ih =>
    intro t sofar
    unfold integrate_source_loop integrate_source_samples
    by_cases ha : s.get_amplitude_at_time lm (t * inva) = 0
    · simp only [ha, if_true, List.map_cons, List.map_nil, complex_sum, complex_add_zero]
    · simp only [ha, if_false, List.map_cons, complex_sum]
      rw [ih, complex_add_assoc]

/-- With a zero shift and a carrier that does not vanish, the two loops visit the
same samples. -/
theorem samples_eq (lm : libm R) (s : src R) (inva : R)
    (hp : ∀ x, lm.cos x ≠ 0 ∨ lm.sin x ≠ 0) (hs : s.amp_shift = 0) :
    ∀ (fuel : Nat) (t : Int),
      integrate_source_samples lm s inva fuel t =
        integrate_envelope_samples lm s inva fuel t := by
  intro fuel
  induction fuel with
  | zero =>
    intro t
    rfl
  | succ n ih =>
    intro t
    unfold integrate_source_samples integrate_envelope_samples
    by_cases he : s.get_envelope_at_time lm (t * inva) = 0
    · rw [if_pos he, if_pos ((amplitude_eq_zero_iff lm s _ hp hs).mpr he)]
    · rw [if_neg he, if_neg (fun h => he ((amplitude_eq_zero_iff lm s _ hp hs).mp h)), ih]

theorem real_carrier_ne_zero (x : ℝ) : Real.cos x ≠ 0 ∨ Real.sin x ≠ 0 := by
  by_contra h
  push_neg at h
  have hsq := Real.cos_sq_add_sin_sq x
  rw [h.1, h.2] at hsq
  norm_num at hsq

/-- C18: for a node with `amp_shift = 0`, in real arithmetic with the real `cos`
and `sin`, the amplitude is zero exactly when the envelope is zero; so the two
integrators, which start at the same index `first_index` and use the same step
`inva`, visit exactly the same list of sample indices (they stop at the same
one), and each returns `inva` times the sum of its integrand over that list. -/
theorem C18_same_samples (s : src ℝ) (inva : ℝ) (hs : s.amp_shift = 0) :
    (∀ t, s.get_amplitude_at_time ⟨Real.exp, Real.cos, Real.sin, Real.sqrt, Real.pi⟩ t = 0 ↔
      s.get_envelope_at_time ⟨Real.exp, Real.cos, Real.sin, Real.sqrt, Real.pi⟩ t = 0) ∧
    integrate_source_samples ⟨Real.exp, Real.cos, Real.sin, Real.sqrt, Real.pi⟩ s inva
        ((2 ^ 30 - first_index s inva).toNat) (first_index s inva) =
      integrate_envelope_samples ⟨Real.exp, Real.cos, Real.sin, Real.sqrt, Real.pi⟩ s inva
        ((2 ^ 30 - first_index s inva).toNat) (first_index s inva) ∧
    integrate_envelope ⟨Real.exp, Real.cos, Real.sin, Real.sqrt, Real.pi⟩ s inva =
      ((integrate_envelope_samples ⟨Real.exp, Real.cos, Real.sin, Real.sqrt, Real.pi⟩ s inva
          ((2 ^ 30 - first_index s inva).toNat) (first_index s inva)).map
        (fun k : Int => s.get_envelope_at_time
          ⟨Real.exp, Real.cos, Real.sin, Real.sqrt, Real.pi⟩ (k * inva))).sum * inva ∧
    integrate_source ⟨Real.exp, Real.cos, Real.sin, Real.sqrt, Real.pi⟩ s inva =
      complex_sum
        ((integrate_source_samples ⟨Real.exp, Real.cos, Real.sin, Real.sqrt, Real.pi⟩ s inva
          ((2 ^ 30 - first_index s inva).toNat) (first_index s inva)).map
        (fun k : Int => s.get_amplitude_at_time
          ⟨Real.exp, Real.cos, Real.sin, Real.sqrt, Real.pi⟩ (k * inva))) * inva := by
  refine ⟨?_, ?_, ?_, ?_⟩
  · intro t
    exact amplitude_eq_zero_iff _ s t real_carrier_ne_zero hs
  · exact samples_eq _ s inva real_carrier_ne_zero hs _ _
  · unfold integrate_envelope
    rw [integrate_envelope_loop_samples, zero_add]
  · unfold integrate_source
    rw [integrate_source_loop_samples, complex_zero_add]

/-- C18, an instance: peak time `0`, cutoff `1/4`, time step `1/2`. -/
theorem C18_same_samples_witness :
    integrate_source_samples ⟨Real.exp, Real.cos, Real.sin, Real.sqrt, Real.pi⟩
        (example_src (1 / 4 : ℝ) 0) (1 / 2)
        ((2 ^ 30 - first_index (example_src (1 / 4 : ℝ) 0) (1 / 2)).toNat)
        (first_index (example_src (1 / 4 : ℝ) 0) (1 / 2)) =
      integrate_envelope_samples ⟨Real.exp, Real.cos, Real.sin, Real.sqrt, Real.pi⟩
        (example_src (1 / 4 : ℝ) 0) (1 / 2)
        ((2 ^ 30 - first_index (example_src (1 / 4 : ℝ) 0) (1 / 2)).toNat)
        (first_index (example_src (1 / 4 : ℝ) 0) (1 / 2)) :=
  (C18_same_samples (example_src (1 / 4 : ℝ) 0) (1 / 2) rfl).2.1

end Samples

/-! ## The envelope integral as a Gaussian sum (C20) -/

theorem Icc_succ_left (a b : Int) (h : a ≤ b) :
    Finset.Icc a b = insert a (Finset.Icc (a + 1) b) := by
  ext k
  simp only [Finset.mem_Icc, Finset.mem_insert]
  omega

section GaussianLoop
variable {R : Type} [LinearOrderedField R]

/-- The envelope of a non-continuous source inside its support is the Gaussian. -/
theorem envelope_inside (lm : libm R) (s : src R) (t : R) (hnc : s.is_continuous = 0)
    (h : |t - s.peaktime| ≤ s.cutoff) :
    s.get_envelope_at_time lm t = lm.exp (-(t - s.peaktime) ^ 2 / (2 * s.width ^ 2)) := by
  unfold src.get_envelope_at_time
  simp only
  rw [if_neg (by rw [hnc]; simp), if_neg (not_lt.mpr h)]
  congr 1
  ring

/-- The envelope sum over the active window of a non-continuous source, entered
at a sample `t` of the support, is the Gaussian sum over the samples from `t` to
the last one `K` of the support, when the fuel reaches as far and `exp` is not
zero at these samples. -/
theorem envelope_window_sum_gaussian (lm : libm R) (s : src R) (inva : R)
    (hnc : s.is_continuous = 0) (hinva : 0 < inva) (k0 K : Int)
    (hK1 : (K : R) * inva - s.peaktime ≤ s.cutoff)
    (hK2 : s.cutoff < ((K : R) + 1) * inva - s.peaktime)
    (hexp : ∀ k : Int, k ∈ Finset.Icc k0 K →
      lm.exp (-((k : R) * inva - s.peaktime) ^ 2 / (2 * s.width ^ 2)) ≠ 0) :
    ∀ (n fuel : Nat) (t : Int), (K + 1 - t).toNat = n → n ≤ fuel → k0 ≤ t → t ≤ K + 1 →
      -s.cutoff ≤ (t : R) * inva - s.peaktime →
      envelope_window_sum lm s inva fuel t =
        Finset.sum (Finset.Icc t K) (fun k : Int =>
          lm.exp (-((k : R) * inva - s.peaktime) ^ 2 / (2 * s.width ^ 2))) := by
  intro n
  induction n with
  | zero =>
    intro fuel t hn _ _ ht _
    have htK : t = K + 1 := by omega
    subst htK
    rw [Finset.Icc_eq_empty (by omega), Finset.sum_empty]
    cases fuel with
    | zero => rfl
    | succ m =>
      unfold envelope_window_sum
      rw [if_pos]
      apply envelope_outside _ s _ (Or.inl hnc)
      push_cast
      exact lt_of_lt_of_le hK2 (le_abs_self _)
  | succ n ih =>
    intro fuel t hn hfuel hk0 ht hlow
    have htK : t ≤ K := by omega
    obtain ⟨m, rfl⟩ := Nat.exists_eq_succ_of_ne_zero (by omega : fuel ≠ 0)
    have hup : (t : R) * inva - s.peaktime ≤ s.cutoff := by
      have h1 : (t : R) ≤ (K : R) := by exact_mod_cast htK
      have h2 : (t : R) * inva ≤ (K : R) * inva := mul_le_mul_of_nonneg_right h1 hinva.le
      linarith
    have henv := envelope_inside lm s ((t : R) * inva) hnc (abs_le.mpr ⟨hlow, hup⟩)
    unfold envelope_window_sum
    rw [henv, if_neg (hexp t (Finset.mem_Icc.mpr ⟨hk0, htK⟩)), Icc_succ_left t K htK,
      Finset.sum_insert (by simp), ih m (t + 1) (by omega) (by omega) (by omega) (by omega)]
    push_cast
    nlinarith

theorem underflow_exp_nonneg (x : ℝ) : 0 ≤ underflow_exp Real.exp x := by
  unfold underflow_exp
  split_ifs
  · exact le_refl _
  · exact (Real.exp_pos x).le

end GaussianLoop

section GaussianSum
variable {R : Type} [LinearOrderedField R] [FloorRing R]

/-- C20 (amended): for a non-continuous source with `inva > 0`, `cutoff >= 0`, a
nonzero width, a first index whose conversion to `int` is defined, the first
sample inside the support, the last sample index of the support,
`K = floor((peaktime + cutoff)/inva)`, below `2^30`, and an `exp` that is not zero
at the Gaussian exponent of any sample of the support (no underflow),
`integrate_envelope` returns `inva` times the sum of
`exp(-(k*inva - peaktime)^2 / (2*width^2))` over the integers `k` from the first
index to `K`, which are exactly the `k >= k0` with `k*inva - peaktime <= cutoff`;
the envelope is that nonzero Gaussian at each of them and zero at the sample
`K + 1`. -/
theorem C20_envelope_integral (lm : libm R) (s : src R) (inva : R)
    (hnc : s.is_continuous = 0) (hinva : 0 < inva) (_hcut : 0 ≤ s.cutoff)
    (_hw : s.width ≠ 0) (_hr : fits_int ((s.peaktime - s.cutoff) / inva))
    (hfirst : |(first_index s inva : R) * inva - s.peaktime| ≤ s.cutoff)
    (hend : ⌊(s.peaktime + s.cutoff) / inva⌋ < 2 ^ 30)
    (hexp : ∀ k : Int,
      k ∈ Finset.Icc (first_index s inva) ⌊(s.peaktime + s.cutoff) / inva⌋ →
      lm.exp (-((k : R) * inva - s.peaktime) ^ 2 / (2 * s.width ^ 2)) ≠ 0) :
    integrate_envelope lm s inva =
      inva * Finset.sum (Finset.Icc (first_index s inva) ⌊(s.peaktime + s.cutoff) / inva⌋)
        (fun k : Int => lm.exp (-((k : R) * inva - s.peaktime) ^ 2 / (2 * s.width ^ 2))) ∧
    (∀ k : Int, k ∈ Finset.Icc (first_index s inva) ⌊(s.peaktime + s.cutoff) / inva⌋ ↔
      first_index s inva ≤ k ∧ (k : R) * inva - s.peaktime ≤ s.cutoff) ∧
    (∀ k : Int, k ∈ Finset.Icc (first_index s inva) ⌊(s.peaktime + s.cutoff) / inva⌋ →
      s.get_envelope_at_time lm ((k : R) * inva) =
        lm.exp (-((k : R) * inva - s.peaktime) ^ 2 / (2 * s.width ^ 2)) ∧
      s.get_envelope_at_time lm ((k : R) * inva) ≠ 0) ∧
    s.get_envelope_at_time lm
      (((⌊(s.peaktime + s.cutoff) / inva⌋ + 1 : Int) : R) * inva) = 0 := by
  have hK1 : ((⌊(s.peaktime + s.cutoff) / inva⌋ : Int) : R) * inva - s.peaktime ≤ s.cutoff := by
    have := (le_div_iff₀ hinva).mp (Int.floor_le ((s.peaktime + s.cutoff) / inva))
    linarith
  have hK2 : s.cutoff <
      (((⌊(s.peaktime + s.cutoff) / inva⌋ : Int) : R) + 1) * inva - s.peaktime := by
    have := (div_lt_iff₀ hinva).mp (Int.lt_floor_add_one ((s.peaktime + s.cutoff) / inva))
    linarith
  have hmem : ∀ k : Int, k ≤ ⌊(s.peaktime + s.cutoff) / inva⌋ ↔
      (k : R) * inva - s.peaktime ≤ s.cutoff := by
    intro k
    rw [Int.le_floor, le_div_iff₀ hinva]
    constructor <;> intro h <;> linarith
  obtain ⟨hlow, hup⟩ := abs_le.mp hfirst
  have hk0 : first_index s inva ≤ ⌊(s.peaktime + s.cutoff) / inva⌋ := (hmem _).mpr hup
  have hgauss : ∀ k : Int,
      k ∈ Finset.Icc (first_index s inva) ⌊(s.peaktime + s.cutoff) / inva⌋ →
      s.get_envelope_at_time lm ((k : R) * inva) =
        lm.exp (-((k : R) * inva - s.peaktime) ^ 2 / (2 * s.width ^ 2)) := by
    intro k hk
    rw [Finset.mem_Icc] at hk
    have h1 : (first_index s inva : R) * inva ≤ (k : R) * inva :=
      mul_le_mul_of_nonneg_right (by exact_mod_cast hk.1) hinva.le
    have h2 := (hmem k).mp hk.2
    exact envelope_inside lm s _ hnc (abs_le.mpr ⟨by linarith, h2⟩)
  refine ⟨?_, ?_, ?_, ?_⟩
  · unfold integrate_envelope
    rw [integrate_envelope_loop_eq, zero_add,
      envelope_window_sum_gaussian lm s inva hnc hinva (first_index s inva) _ hK1 hK2 hexp
        _ _ _ rfl (by omega) (le_refl _) (by omega) hlow, mul_comm]
  · intro k
    rw [Finset.mem_Icc, hmem]
  · intro k hk
    refine ⟨hgauss k hk, ?_⟩
    rw [hgauss k hk]
    exact hexp k hk
  · apply envelope_outside _ s _ (Or.inl hnc)
    push_cast
    exact lt_of_lt_of_le hK2 (le_abs_self _)

/-- C20, an instance: peak time `0`, unit width, cutoff `1`, time step `1/2`,
real `exp`: the first index is `-2`, the support ends at the sample `2`, and the
integral is half the sum of the Gaussian over the five samples `-2, ..., 2`. -/
theorem C20_envelope_integral_witness :
    integrate_envelope ⟨Real.exp, Real.cos, Real.sin, Real.sqrt, Real.pi⟩
        (example_src (1 : ℝ) 0) (1 / 2) =
      1 / 2 * Finset.sum (Finset.Icc (-2 : Int) 2)
        (fun k : Int => Real.exp (-((k : ℝ) * (1 / 2) - 0) ^ 2 / (2 * (1 : ℝ) ^ 2))) := by
  have hk : first_index (example_src (1 : ℝ) 0) (1 / 2) = -2 := by
    unfold first_index
    have e : ((example_src (1 : ℝ) 0).peaktime - (example_src (1 : ℝ) 0).cutoff) / (1 / 2)
        = ((-2 : Int) : ℝ) := by norm_num [example_src]
    rw [e, to_int_intCast]
  have hK : ⌊((example_src (1 : ℝ) 0).peaktime + (example_src (1 : ℝ) 0).cutoff)
      / (1 / 2)⌋ = 2 := by
    have e : ((example_src (1 : ℝ) 0).peaktime + (example_src (1 : ℝ) 0).cutoff) / (1 / 2)
        = ((2 : Int) : ℝ) := by norm_num [example_src]
    rw [e, Int.floor_intCast]
  have h := (C20_envelope_integral
    (⟨Real.exp, Real.cos, Real.sin, Real.sqrt, Real.pi⟩ : libm ℝ)
    (example_src (1 : ℝ) 0) (1 / 2) rfl (by norm_num) (by norm_num [example_src])
    (by norm_num [example_src]) (by constructor <;> norm_num [example_src])
    (by
      rw [hk, abs_le]
      constructor <;> norm_num [example_src])
    (by rw [hK]; norm_num) (fun k _ => Real.exp_ne_zero _)).1
  rw [hk, hK] at h
  exact h

/-- C20 as stated fails when `exp` underflows inside the support.  With peak time
`0`, unit width, cutoff `40` and time step `1`, every hypothesis of the claim
holds; the first sample is `-40`, where the exponent is `-800` and an `exp` that
is zero below `-746` gives the envelope `0`: the loop stops at once and
`integrate_envelope` returns `0`, while the sum of `exp` over the samples of the
support is at least `exp(0) = 1`. -/
theorem C20_counterexample :
    (example_src (40 : ℝ) 0).is_continuous = 0 ∧ (0 : ℝ) < 1 ∧
    0 ≤ (example_src (40 : ℝ) 0).cutoff ∧
    |(first_index (example_src (40 : ℝ) 0) 1 : ℝ) * 1 - (example_src (40 : ℝ) 0).peaktime|
      ≤ (example_src (40 : ℝ) 0).cutoff ∧
    ⌊((example_src (40 : ℝ) 0).peaktime + (example_src (40 : ℝ) 0).cutoff) / 1⌋ < 2 ^ 30 ∧
    integrate_envelope ⟨underflow_exp Real.exp, Real.cos, Real.sin, Real.sqrt, Real.pi⟩
        (example_src (40 : ℝ) 0) 1 = 0 ∧
    integrate_envelope ⟨underflow_exp Real.exp, Real.cos, Real.sin, Real.sqrt, Real.pi⟩
        (example_src (40 : ℝ) 0) 1 ≠
      1 * Finset.sum (Finset.Icc (first_index (example_src (40 : ℝ) 0) 1)
          ⌊((example_src (40 : ℝ) 0).peaktime + (example_src (40 : ℝ) 0).cutoff) / 1⌋)
        (fun k : Int => underflow_exp Real.exp
          (-((k : ℝ) * 1 - (example_src (40 : ℝ) 0).peaktime) ^ 2
            / (2 * (example_src (40 : ℝ) 0).width ^ 2))) := by
  have hk : first_index (example_src (40 : ℝ) 0) 1 = -40 := by
    unfold first_index
    have e : ((example_src (40 : ℝ) 0).peaktime - (example_src (40 : ℝ) 0).cutoff) / 1
        = ((-40 : Int) : ℝ) := by norm_num [example_src]
    rw [e, to_int_intCast]
  have hK : ⌊((example_src (40 : ℝ) 0).peaktime + (example_src (40 : ℝ) 0).cutoff) / 1⌋
      = 40 := by
    have e : ((example_src (40 : ℝ) 0).peaktime + (example_src (40 : ℝ) 0).cutoff) / 1
        = ((40 : Int) : ℝ) := by norm_num [example_src]
    rw [e, Int.floor_intCast]
  have henv : (example_src (40 : ℝ) 0).get_envelope_at_time
      ⟨underflow_exp Real.exp, Real.cos, Real.sin, Real.sqrt, Real.pi⟩
      ((first_index (example_src (40 : ℝ) 0) 1 : ℝ) * 1) = 0 := by
    rw [hk, envelope_inside _ _ _ rfl (by
      rw [abs_le]
      constructor <;> norm_num [example_src])]
    show underflow_exp Real.exp _ = 0
    unfold underflow_exp
    rw [if_pos (by norm_num [example_src])]
  have hzero := (integrators_zero_of_first_zero
    (⟨underflow_exp Real.exp, Real.cos, Real.sin, Real.sqrt, Real.pi⟩ : libm ℝ)
    (example_src (40 : ℝ) 0) 1 henv).1
  have hsum : (1 : ℝ) ≤ Finset.sum (Finset.Icc (-40 : Int) 40)
      (fun k : Int => underflow_exp Real.exp
        (-((k : ℝ) * 1 - (example_src (40 : ℝ) 0).peaktime) ^ 2
          / (2 * (example_src (40 : ℝ) 0).width ^ 2))) := by
    have h0 : (0 : Int) ∈ Finset.Icc (-40 : Int) 40 := by
      rw [Finset.mem_Icc]
      constructor <;> norm_num
    have hle := Finset.single_le_sum
      (f := fun k : Int => underflow_exp Real.exp
        (-((k : ℝ) * 1 - (example_src (40 : ℝ) 0).peaktime) ^ 2
          / (2 * (example_src (40 : ℝ) 0).width ^ 2)))
      (fun k _ => underflow_exp_nonneg _) h0
    have hone : underflow_exp Real.exp
        (-(((0 : Int) : ℝ) * 1 - (example_src (40 : ℝ) 0).peaktime) ^ 2
          / (2 * (example_src (40 : ℝ) 0).width ^ 2)) = 1 := by
      unfold underflow_exp
      rw [if_neg (by norm_num [example_src])]
      norm_num [example_src]
    simp only [hone] at hle
    exact hle
  refine ⟨rfl, by norm_num, by norm_num [example_src], ?_, ?_, hzero, ?_⟩
  · rw [hk, abs_le]
    constructor <;> norm_num [example_src]
  · rw [hK]
    norm_num
  · rw [hzero, hk, hK, one_mul]
    intro h
    rw [← h] at hsum
    norm_num at hsum

end GaussianSum

end Sources
